import Mathlib

/-!
Verification of the generational affiliation simulation in
trunk/workspace.thinkstats/ThinkStats/gss.py.

The embedding is shallow: Python dictionaries become association lists,
Python floats become rationals, the shared pseudo-random source becomes an
explicit stream of draws threaded through the computation, and fallible
Python code (statements that can raise) returns Except.  The classes Pmf,
Hist and Cdf live in Pmf.py, Cdf.py and thinkstats.py, which are part of
this repository but not provided; they are modelled from the spec
(sections 4.1 and 4.2) where noted.  Everything else is translated
line by line from gss.py.
-/

/-- Failure kinds raised by the embedded code.  Each constructor records the
Python exception realizing it: zeroDivision is ZeroDivisionError,
keyError is KeyError on a dictionary lookup, missingDecade is the KeyError
raised by the lookup tables[source_year] in TransitionModel2.extend_tables
(the MissingDecade condition of the spec), indexError is IndexError,
degenerateDistribution is the ValueError raised when normalizing or sampling
a zero-weight Pmf, emptyPmf is EmptyPmfError, attributeError is
AttributeError on a missing attribute, typeError is TypeError on a mixed
arithmetic operand. -/
inductive GssError where
  | zeroDivision
  | keyError
  | missingDecade
  | indexError
  | degenerateDistribution
  | emptyPmf
  | attributeError
  | typeError
  deriving DecidableEq, Repr

/-- The shared pseudo-random source (Python module random): the stream of
uniform draws from the interval between 0 inclusive and 1 exclusive that
the run has not consumed yet.  A finite execution touches finitely many
draws, so a finite list suffices; an exhausted list keeps producing the
draw 0, making ⟨[]⟩ the all-zero source. -/
structure RandSrc where
  draws : List ℚ
  deriving DecidableEq, Repr

/-- Consumes one uniform draw from the source. -/
def RandSrc.next (r : RandSrc) : ℚ × RandSrc :=
  match r.draws with
  | [] => (0, ⟨[]⟩)
  | u :: rest => (u, ⟨rest⟩)

/-- Validity of a random source: every draw lies in the unit interval, as
the Python function random.random guarantees (the default draw 0 of the
exhausted source lies there as well). -/
def RandSrc.Valid (r : RandSrc) : Prop :=
  ∀ u ∈ r.draws, 0 ≤ u ∧ u < 1

theorem RandSrc.next_valid (r : RandSrc) (h : r.Valid) :
    (0 ≤ r.next.1 ∧ r.next.1 < 1) ∧ r.next.2.Valid := by
  unfold RandSrc.next
  cases hd : r.draws with
  | nil =>
    refine ⟨by norm_num, ?_⟩
    intro u hu
    simp at hu
  | cons u rest =>
    refine ⟨h u (by rw [hd]; simp), ?_⟩
    intro v hv
    exact h v (by rw [hd]; simp [hv])

attribute [local semireducible] Rat.mul Rat.add Rat.sub Rat.inv
  Rat.ofScientific

/-- Decidable equality for Except values with decidable components. -/
instance {ε α : Type} [DecidableEq ε] [DecidableEq α] :
    DecidableEq (Except ε α) := fun a b =>
  match a, b with
  | .error e, .error f =>
      if h : e = f then .isTrue (by rw [h]) else .isFalse (by simp [h])
  | .error _, .ok _ => .isFalse (by simp)
  | .ok _, .error _ => .isFalse (by simp)
  | .ok x, .ok y =>
      if h : x = y then .isTrue (by rw [h]) else .isFalse (by simp [h])

/-- Python float division: raises ZeroDivisionError when the denominator is
zero, including the 0/0 case. -/
def pydiv (a b : ℚ) : Except GssError ℚ :=
  if b = 0 then .error .zeroDivision else .ok (a / b)

/-- Python list indexing with negative-index wrap-around; raises IndexError
when the resolved index is out of range. -/
def pyindex {α : Type} (xs : List α) (i : Int) : Except GssError α :=
  let j : Int := if i < 0 then i + xs.length else i
  if h : 0 ≤ j ∧ j < xs.length then
    .ok (xs.get ⟨j.toNat, by omega⟩)
  else
    .error .indexError

/-- Dictionary lookup on an association list (Python d.get / membership). -/
def dictLookup {κ β : Type} [DecidableEq κ] (d : List (κ × β)) (k : κ) :
    Option β :=
  match d with
  | [] => none
  | p :: rest => if p.1 = k then some p.2 else dictLookup rest k

/-- Dictionary write d[k] = v: replaces the value in place when the key is
present, otherwise appends the binding, as a Python dict does. -/
def dictInsert {κ β : Type} [DecidableEq κ] (d : List (κ × β)) (k : κ)
    (v : β) : List (κ × β) :=
  match d with
  | [] => [(k, v)]
  | p :: rest => if p.1 = k then (k, v) :: rest else p :: dictInsert rest k v

/-- Dictionary indexing d[k]: raises KeyError when the key is absent. -/
def dictIndex {κ β : Type} [DecidableEq κ] (d : List (κ × β)) (k : κ) :
    Except GssError β :=
  match dictLookup d k with
  | some v => .ok v
  | none => .error .keyError

theorem dictLookup_insert_self {κ β : Type} [DecidableEq κ]
    (d : List (κ × β)) (k : κ) (v : β) :
    dictLookup (dictInsert d k v) k = some v := by
  induction d with
  | nil => simp [dictInsert, dictLookup]
  | cons p rest ih =>
    by_cases hp : p.1 = k
    · simp [dictInsert, dictLookup, hp]
    · simp [dictInsert, dictLookup, hp, ih]

theorem dictLookup_insert_other {κ β : Type} [DecidableEq κ]
    (d : List (κ × β)) (k k' : κ) (v : β) (hne : k' ≠ k) :
    dictLookup (dictInsert d k v) k' = dictLookup d k' := by
  induction d with
  | nil => simp [dictInsert, dictLookup, Ne.symm hne]
  | cons p rest ih =>
    by_cases hp : p.1 = k
    · have hpk : ¬ p.1 = k' := by rw [hp]; exact Ne.symm hne
      simp [dictInsert, dictLookup, hp, hpk, Ne.symm hne]
    · by_cases hpk : p.1 = k'
      · simp only [dictInsert, if_neg hp]
        simp [dictLookup, hpk]
      · simp [dictInsert, dictLookup, hp, hpk, ih]

theorem dictInsert_length_of_absent {κ β : Type} [DecidableEq κ]
    (d : List (κ × β)) (k : κ) (v : β) (h : dictLookup d k = none) :
    (dictInsert d k v).length = d.length + 1 := by
  induction d with
  | nil => simp [dictInsert]
  | cons p rest ih =>
    by_cases hp : p.1 = k
    · simp [dictLookup, hp] at h
    · simp only [dictLookup, if_neg hp] at h
      simp [dictInsert, hp, ih h]

theorem dictInsert_keys_of_absent {κ β : Type} [DecidableEq κ]
    (d : List (κ × β)) (k : κ) (v : β) (h : dictLookup d k = none) :
    (dictInsert d k v).map Prod.fst = d.map Prod.fst ++ [k] := by
  induction d with
  | nil => simp [dictInsert]
  | cons p rest ih =>
    by_cases hp : p.1 = k
    · simp [dictLookup, hp] at h
    · simp only [dictLookup, if_neg hp] at h
      simp [dictInsert, hp, ih h]

/-- Modelled from the spec: WeightedDistribution, section 4.1 (class Pmf of
Pmf.py, which is part of this repository but not under src/).  A mapping
from category value to accumulated weight, kept in insertion order.  The
unnormalized frequency histogram (class Hist) is the same structure. -/
structure Pmf (α : Type) where
  items : List (α × ℚ)
  deriving DecidableEq

/-- Hist is the same dictionary used without normalization. -/
abbrev Hist := Pmf

/-- Accumulation step of Pmf.Incr on the underlying dictionary. -/
def incrItems {α : Type} [DecidableEq α] :
    List (α × ℚ) → α → ℚ → List (α × ℚ)
  | [], v, w => [(v, w)]
  | p :: rest, v, w =>
      if p.1 = v then (p.1, p.2 + w) :: rest else p :: incrItems rest v w

/-- Modelled from the spec: increment-by-weight; a missing value is created
with weight 0 first, so a zero-weight increment still creates the entry. -/
def Pmf.Incr {α : Type} [DecidableEq α] (pmf : Pmf α) (v : α) (w : ℚ) :
    Pmf α :=
  ⟨incrItems pmf.items v w⟩

/-- Total weight of the distribution. -/
def Pmf.Total {α : Type} (pmf : Pmf α) : ℚ :=
  (pmf.items.map Prod.snd).sum

/-- Modelled from the spec: the stored weight for a known value, 0 for an
unknown one (Python d.get(x, 0)); meaningful as a probability only after
normalization. -/
def Pmf.Prob {α : Type} [DecidableEq α] (pmf : Pmf α) (v : α) : ℚ :=
  (dictLookup pmf.items v).getD 0

/-- Hist.Freq is the same dictionary read as Pmf.Prob. -/
def Pmf.Freq {α : Type} [DecidableEq α] (pmf : Pmf α) (v : α) : ℚ :=
  pmf.Prob v

/-- Modelled from the spec: rescales all weights so they sum to 1; fails
with DegenerateDistribution (a ValueError in the Python) when the current
total is 0. -/
def Pmf.Normalize {α : Type} (pmf : Pmf α) : Except GssError (Pmf α) :=
  if pmf.Total = 0 then .error .degenerateDistribution
  else .ok ⟨pmf.items.map (fun p => (p.1, p.2 / pmf.Total))⟩

theorem Pmf.Total_Incr {α : Type} [DecidableEq α] (pmf : Pmf α) (v : α)
    (w : ℚ) : (pmf.Incr v w).Total = pmf.Total + w := by
  show ((incrItems pmf.items v w).map Prod.snd).sum = _
  unfold Pmf.Total
  induction pmf.items with
  | nil => simp [incrItems]
  | cons p rest ih =>
    by_cases hp : p.1 = v
    · simp [incrItems, hp]; ring
    · simp only [incrItems, if_neg hp, List.map_cons, List.sum_cons, ih]
      ring

/-- Incrementing value v leaves the stored weight of any other value
unchanged. -/
theorem Pmf.Prob_Incr_other {α : Type} [DecidableEq α] (pmf : Pmf α)
    (v u : α) (w : ℚ) (hne : u ≠ v) :
    (pmf.Incr v w).Prob u = pmf.Prob u := by
  show (dictLookup (incrItems pmf.items v w) u).getD 0 = _
  unfold Pmf.Prob
  induction pmf.items with
  | nil => simp [incrItems, dictLookup, Ne.symm hne]
  | cons p rest ih =>
    by_cases hp : p.1 = v
    · have hpu : ¬ p.1 = u := by rw [hp]; exact Ne.symm hne
      simp [incrItems, dictLookup, hp, hpu, Ne.symm hne]
    · by_cases hpu : p.1 = u
      · simp [incrItems, dictLookup, hp, hpu, hne, Ne.symm hne]
      · simp only [incrItems, if_neg hp, dictLookup, if_neg hpu]
        exact ih

/-- Incrementing value v adds w to its stored weight (the missing case
counts as stored weight 0). -/
theorem Pmf.Prob_Incr_self {α : Type} [DecidableEq α] (pmf : Pmf α)
    (v : α) (w : ℚ) :
    (pmf.Incr v w).Prob v = pmf.Prob v + w := by
  show (dictLookup (incrItems pmf.items v w) v).getD 0 = _
  unfold Pmf.Prob
  induction pmf.items with
  | nil => simp [incrItems, dictLookup]
  | cons p rest ih =>
    by_cases hp : p.1 = v
    · simp [incrItems, dictLookup, hp]
    · simp only [incrItems, if_neg hp, dictLookup, if_neg hp]
      exact ih

/-- Normalization divides each stored weight by the old total. -/
theorem Pmf.Prob_Normalize {α : Type} [DecidableEq α] (pmf q : Pmf α)
    (hq : pmf.Normalize = .ok q) (v : α) :
    q.Prob v = pmf.Prob v / pmf.Total := by
  unfold Pmf.Normalize at hq
  by_cases h0 : pmf.Total = 0
  · simp [h0] at hq
  · simp only [h0, if_false, Except.ok.injEq] at hq
    subst hq
    show (dictLookup (pmf.items.map fun p => (p.1, p.2 / pmf.Total)) v).getD 0
        = (dictLookup pmf.items v).getD 0 / pmf.Total
    induction pmf.items with
    | nil => simp [dictLookup]
    | cons p rest ih =>
      by_cases hp : p.1 = v
      · simp [dictLookup, hp]
      · simp only [List.map_cons, dictLookup, if_neg hp]
        exact ih

/-- Running-sum construction over (value, weight) pairs, keeping values. -/
def runningSums {α : Type} : List (α × ℚ) → ℚ → List (α × ℚ)
  | [], _ => []
  | (v, w) :: rest, acc => (v, acc + w) :: runningSums rest (acc + w)

/-- Modelled from the spec: CumulativeDistribution, section 4.2 (class Cdf
of Cdf.py, which is part of this repository but not under src/).  Pairs of
value and running sum in sorted value order, plus the total weight. -/
structure Cdf (α : Type) where
  items : List (α × ℚ)
  total : ℚ
  deriving DecidableEq

/-- Modelled from the spec: sorts the (value, weight) pairs by the natural
order of the values and builds the running-sum array. -/
def Cdf.MakeCdfFromItems {α : Type} [LinearOrder α]
    (items : List (α × ℚ)) : Cdf α :=
  let sorted := List.insertionSort (fun a b : α × ℚ => a.1 ≤ b.1) items
  ⟨runningSums sorted 0, (items.map Prod.snd).sum⟩

/-- Modelled from the spec: inverse-CDF lookup, the value at the first
running-sum entry at or above the drawn number. -/
def Cdf.value {α : Type} (cdf : Cdf α) (x : ℚ) : Except GssError α :=
  match cdf.items.find? (fun p => x ≤ p.2) with
  | some p => .ok p.1
  | none => .error .indexError

/-- Modelled from the spec: draws one value, scaling a unit uniform draw to
the interval from 0 to the total; an empty (zero-total) distribution must
never be sampled and surfaces DegenerateDistribution. -/
def Cdf.Random {α : Type} (cdf : Cdf α) (rand : RandSrc) :
    Except GssError (α × RandSrc) :=
  if cdf.total = 0 then .error .degenerateDistribution
  else (cdf.value (rand.next.1 * cdf.total)).map (fun v => (v, rand.next.2))

/-- Modelled from the spec: n independent draws with replacement. -/
def Cdf.Sample {α : Type} (cdf : Cdf α) (n : Nat) (rand : RandSrc) :
    Except GssError (List α × RandSrc) :=
  match n with
  | 0 => .ok ([], rand)
  | n + 1 => do
      let (v, rand1) ← cdf.Random rand
      let (vs, rand2) ← cdf.Sample n rand1
      .ok (v :: vs, rand2)

theorem runningSums_map_fst {α : Type} (xs : List (α × ℚ)) (acc : ℚ) :
    (runningSums xs acc).map Prod.fst = xs.map Prod.fst := by
  induction xs generalizing acc with
  | nil => simp [runningSums]
  | cons p rest ih => simp [runningSums, ih]

theorem find_runningSums_of_lt_sum {α : Type} (xs : List (α × ℚ)) (acc x : ℚ)
    (hx : x < acc + (xs.map Prod.snd).sum) :
    (∃ p ∈ runningSums xs acc, x ≤ p.2) ∨ x < acc := by
  induction xs generalizing acc with
  | nil => right; simpa using hx
  | cons p rest ih =>
    by_cases hle : x ≤ acc + p.2
    · left
      exact ⟨(p.1, acc + p.2), by simp [runningSums], hle⟩
    · have hx2 : x < (acc + p.2) + (rest.map Prod.snd).sum := by
        simp only [List.map_cons, List.sum_cons] at hx
        linarith
      rcases ih (acc + p.2) hx2 with h | h
      · left
        obtain ⟨q, hq, hqx⟩ := h
        exact ⟨q, by simp [runningSums, hq], hqx⟩
      · exact absurd h (by linarith)

/-- Inverse-CDF lookup succeeds on a draw below the total weight, and the
returned value is one of the input values. -/
theorem Cdf.value_ok {α : Type} [LinearOrder α] (items : List (α × ℚ))
    (x : ℚ) (hx0 : 0 ≤ x) (hxt : x < (items.map Prod.snd).sum) :
    ∃ v, (Cdf.MakeCdfFromItems items).value x = .ok v ∧
      v ∈ items.map Prod.fst := by
  unfold Cdf.MakeCdfFromItems Cdf.value
  set sorted := List.insertionSort (fun a b : α × ℚ => a.1 ≤ b.1) items with hs
  have hsum : (sorted.map Prod.snd).sum = (items.map Prod.snd).sum := by
    exact List.Perm.sum_eq (List.Perm.map _ (List.perm_insertionSort _ _))
  have hlt : x < 0 + (sorted.map Prod.snd).sum := by rw [hsum]; linarith
  rcases find_runningSums_of_lt_sum sorted 0 x hlt with h | h
  · obtain ⟨p, hp, hpx⟩ := h
    have hsome : ((runningSums sorted 0).find?
        (fun q => decide (x ≤ q.2))).isSome = true := by
      rw [List.find?_isSome]
      exact ⟨p, hp, by simpa using hpx⟩
    obtain ⟨q, hq⟩ := Option.isSome_iff_exists.mp hsome
    refine ⟨q.1, by rw [hq], ?_⟩
    have hqmem : q ∈ runningSums sorted 0 := List.mem_of_find?_eq_some hq
    have : q.1 ∈ (runningSums sorted 0).map Prod.fst :=
      List.mem_map_of_mem _ hqmem
    rw [runningSums_map_fst] at this
    exact ((List.perm_insertionSort _ items).map Prod.fst).mem_iff.mp this
  · linarith

/-- Modelled from the spec: sampling a Pmf delegates to a
CumulativeDistribution built on demand (Pmf.Random of Pmf.py). -/
def Pmf.Random {α : Type} [LinearOrder α] (pmf : Pmf α) (rand : RandSrc) :
    Except GssError (α × RandSrc) :=
  (Cdf.MakeCdfFromItems pmf.items).Random rand

/-- The five known affiliation names (ORDER in gss.py). -/
def ORDER : List String := ["prot", "cath", "jew", "other", "none"]

/-- Respondent of gss.py, restricted to the attributes the verified paths
read.  The field yrborn is none for the value NA; the string-valued
affiliation fields use the literal sentinel NA.  The field parent is the
object reference a synthesized child keeps to its parent (make_child).
The fields age, childs and kdyrbrn carry the cleaned values used by the
birth model; kdyrbrn lists the cleaned kdyrbrn1..kdyrbrn9 columns. -/
inductive Respondent where
  | mk (caseid : Nat) (compwt : ℚ) (year : Int) (yrborn : Option Int)
      (sex : Nat) (relig_name : String) (relig16_name : String)
      (parelig_name : String) (marelig_name : String)
      (decade : Option Int) (age : Nat) (childs : Nat)
      (kdyrbrn : List (Option Int)) (parent : Option Respondent)

def Respondent.caseid : Respondent → Nat
  | .mk c _ _ _ _ _ _ _ _ _ _ _ _ _ => c

def Respondent.compwt : Respondent → ℚ
  | .mk _ w _ _ _ _ _ _ _ _ _ _ _ _ => w

def Respondent.year : Respondent → Int
  | .mk _ _ y _ _ _ _ _ _ _ _ _ _ _ => y

def Respondent.yrborn : Respondent → Option Int
  | .mk _ _ _ yb _ _ _ _ _ _ _ _ _ _ => yb

def Respondent.sex : Respondent → Nat
  | .mk _ _ _ _ s _ _ _ _ _ _ _ _ _ => s

def Respondent.relig_name : Respondent → String
  | .mk _ _ _ _ _ r _ _ _ _ _ _ _ _ => r

def Respondent.relig16_name : Respondent → String
  | .mk _ _ _ _ _ _ r _ _ _ _ _ _ _ => r

def Respondent.parelig_name : Respondent → String
  | .mk _ _ _ _ _ _ _ p _ _ _ _ _ _ => p

def Respondent.marelig_name : Respondent → String
  | .mk _ _ _ _ _ _ _ _ m _ _ _ _ _ => m

def Respondent.decade : Respondent → Option Int
  | .mk _ _ _ _ _ _ _ _ _ d _ _ _ _ => d

def Respondent.age : Respondent → Nat
  | .mk _ _ _ _ _ _ _ _ _ _ a _ _ _ => a

def Respondent.childs : Respondent → Nat
  | .mk _ _ _ _ _ _ _ _ _ _ _ c _ _ => c

def Respondent.kdyrbrn : Respondent → List (Option Int)
  | .mk _ _ _ _ _ _ _ _ _ _ _ _ k _ => k

def Respondent.parent : Respondent → Option Respondent
  | .mk _ _ _ _ _ _ _ _ _ _ _ _ _ p => p

/-- Survey of gss.py: the map self.rs from caseid to Respondent, as an
association list in insertion order.  The lazily cached CDF (self.cdf) is
rebuilt where the code would build it, which does not change any verified
behavior. -/
structure Survey where
  rs : List (Nat × Respondent)

/-- Survey() with no respondents. -/
def Survey.empty : Survey := ⟨[]⟩

/-- Survey.add_respondent: self.rs[r.caseid] = r. -/
def Survey.add_respondent (s : Survey) (r : Respondent) : Survey :=
  ⟨dictInsert s.rs r.caseid r⟩

/-- Survey.add_respondents over an iterator of respondents. -/
def Survey.add_respondents (s : Survey) (rs : List Respondent) : Survey :=
  rs.foldl Survey.add_respondent s

/-- Survey.len: number of respondents. -/
def Survey.len (s : Survey) : Nat := s.rs.length

/-- Survey.lookup: indexes self.rs by caseid (KeyError when absent). -/
def Survey.lookup (s : Survey) (caseid : Nat) : Except GssError Respondent :=
  dictIndex s.rs caseid

/-- Survey.subsample: keeps the respondents passing the filter, re-keying
every kept record by its own caseid, as the dict(pairs) construction does. -/
def Survey.subsample (s : Survey) (filter_func : Respondent → Bool) :
    Survey :=
  ⟨(s.rs.filterMap fun p =>
      if filter_func p.2 then some (p.2.caseid, p.2) else none).foldl
    (fun d q => dictInsert d q.1 q.2) []⟩

/-- Accumulation loop of Survey.make_age_pmf: skips respondents with
unknown birth year, increments the age in the given survey year by the
respondent weight. -/
def agePmfLoop (year : Int) : List (Nat × Respondent) → Pmf Int → Pmf Int
  | [], pmf => pmf
  | (_, r) :: rest, pmf =>
      match r.yrborn with
      | none => agePmfLoop year rest pmf
      | some yb => agePmfLoop year rest (pmf.Incr (year - yb) r.compwt)

/-- Survey.make_age_pmf: weighted age distribution at the given survey
year, normalized; normalization raises when the total weight is zero. -/
def Survey.make_age_pmf (s : Survey) (survey_year : Int) :
    Except GssError (Pmf Int) :=
  (agePmfLoop survey_year s.rs ⟨[]⟩).Normalize

/-- Survey.make_cdf: CDF over (caseid, compwt) pairs. -/
def Survey.make_cdf (s : Survey) : Cdf Nat :=
  Cdf.MakeCdfFromItems (s.rs.map fun p => (p.1, p.2.compwt))

/-- Weight-computing loop of Survey.resample_by_age (lines 716 to 723):
skips respondents with unknown birth year and divides the target
probability of the respondent age by its current probability; the division
raises ZeroDivisionError when the current probability is zero. -/
def resampleItemsLoop (year : Int) (age_pmf current : Pmf Int) :
    List (Nat × Respondent) → Except GssError (List (Nat × ℚ))
  | [] => .ok []
  | (caseid, r) :: rest =>
      match r.yrborn with
      | none => resampleItemsLoop year age_pmf current rest
      | some yb => do
          let age := year - yb
          let weight ← pydiv (age_pmf.Prob age) (current.Prob age)
          let items ← resampleItemsLoop year age_pmf current rest
          .ok ((caseid, weight) :: items)

/-- Key-building loop of Survey.resample_by_cdf: dict((i, self.rs[caseid])
for i, caseid in enumerate(ids)); the lookup raises KeyError when a drawn
caseid is not a key of the survey. -/
def resampleDictLoop (s : Survey) :
    List Nat → Nat → Except GssError (List (Nat × Respondent))
  | [], _ => .ok []
  | caseid :: rest, i => do
      let r ← dictIndex s.rs caseid
      let tail ← resampleDictLoop s rest (i + 1)
      .ok ((i, r) :: tail)

/-- Survey.resample_by_cdf: draws n caseids from the CDF and builds the new
survey keyed by the position of each draw. -/
def Survey.resample_by_cdf (s : Survey) (cdf : Cdf Nat) (n : Nat)
    (rand : RandSrc) : Except GssError (Survey × RandSrc) := do
  let (ids, rand1) ← cdf.Sample n rand
  let rs ← resampleDictLoop s ids 0
  .ok (⟨rs⟩, rand1)

/-- Survey.resample: n defaults to the survey size when absent; the Python
expression n or len makes an explicit 0 fall back to the size as well. -/
def Survey.resample (s : Survey) (n : Option Nat) (rand : RandSrc) :
    Except GssError (Survey × RandSrc) :=
  let n1 := match n with
    | none => s.len
    | some 0 => s.len
    | some k => k
  s.resample_by_cdf s.make_cdf n1 rand

/-- Survey.resample_by_age: computes the current age distribution, the
importance weights, and resamples n respondents from the induced CDF. -/
def Survey.resample_by_age (s : Survey) (n : Nat) (year : Int)
    (age_pmf : Pmf Int) (rand : RandSrc) :
    Except GssError (Survey × RandSrc) := do
  let current ← s.make_age_pmf year
  let items ← resampleItemsLoop year age_pmf current s.rs
  s.resample_by_cdf (Cdf.MakeCdfFromItems items) n rand

/-- Table of gss.py: a map from explanatory value to outcome Pmf plus an
auxiliary frequency histogram. -/
structure Table where
  table : List (String × Pmf String)
  hist : Hist String
  deriving DecidableEq

/-- Table.choose: indexes the table by key (KeyError when absent), raises
EmptyPmfError on a zero-total cell, otherwise samples the cell. -/
def Table.choose (t : Table) (key : String) (rand : RandSrc) :
    Except GssError (String × RandSrc) := do
  let pmf ← dictIndex t.table key
  if pmf.Total = 0 then .error .emptyPmf
  else pmf.Random rand

/-- The normalize_table helper of gss.py: normalizes every cell whose total
weight is nonzero and leaves zero-total cells untouched. -/
def normalize_table (tbl : List (String × Pmf String)) :
    List (String × Pmf String) :=
  tbl.map fun p =>
    match p.2.Normalize with
    | .ok q => (p.1, q)
    | .error _ => p

/-- Accumulation loop of Survey.cross_tab: records with the sentinel NA on
either attribute are skipped; others increment the cell of the explanatory
value (KeyError when that value is not a key, i.e. not in ORDER) and the
frequency histogram. -/
def crossTabLoop (attr1 attr2 : Respondent → String) :
    List (Nat × Respondent) → List (String × Pmf String) → Hist String →
    Except GssError (List (String × Pmf String) × Hist String)
  | [], tbl, hist => .ok (tbl, hist)
  | (_, r) :: rest, tbl, hist =>
      let x := attr1 r
      let y := attr2 r
      if x = "NA" ∨ y = "NA" then crossTabLoop attr1 attr2 rest tbl hist
      else do
        let pmf ← dictIndex tbl x
        crossTabLoop attr1 attr2 rest
          (dictInsert tbl x (pmf.Incr y r.compwt))
          (hist.Incr x r.compwt)

/-- Survey.cross_tab: builds the Table whose keys are the ORDER names. -/
def Survey.cross_tab (s : Survey) (attr1 attr2 : Respondent → String) :
    Except GssError Table := do
  let init := ORDER.map fun name => (name, (⟨[]⟩ : Pmf String))
  let (tbl, hist) ← crossTabLoop attr1 attr2 s.rs init ⟨[]⟩
  .ok ⟨normalize_table tbl, hist⟩

/-- TransitionModel2 of gss.py.  The pooled tables and the per-decade
tables; the per-decade maps carry the tables directly, since table objects
are never mutated after construction on the verified paths.  The separate
reference-level model of extend_tables below settles the aliasing claims. -/
structure TransitionModel2 where
  decade_flag : Bool
  up_table : Table
  trans_table : Table
  up_tables : List (Int × Table)
  trans_tables : List (Int × Table)
  deriving DecidableEq

/-- TransitionModel2.extend_tables: reads the table at source_year (the
KeyError here is the MissingDecade condition of the spec) and writes that
same value into every destination decade.  The value type is kept abstract:
in Python the dictionary values are object references, so instantiating β
with an object identifier shows reference sharing, and instantiating it
with Table shows content sharing. -/
def TransitionModel2.extend_tables {β : Type} (tables : List (Int × β))
    (source_year : Int) (dest_years : List Int) :
    Except GssError (List (Int × β)) :=
  match dictLookup tables source_year with
  | none => .error .missingDecade
  | some source =>
      .ok (dest_years.foldl (fun t dest_year => dictInsert t dest_year source)
        tables)

/-- TransitionModel2.choose_upbringing: under the per-decade flag, looks up
the decade table (Python floor division on the birth year), falls back to
the pooled table only on EmptyPmfError; otherwise uses the pooled table. -/
def TransitionModel2.choose_upbringing (tm : TransitionModel2) (yrborn : Int)
    (relig_name : String) (rand : RandSrc) :
    Except GssError (String × RandSrc) :=
  if tm.decade_flag then
    let decade := yrborn.fdiv 10 * 10
    match dictLookup tm.up_tables decade with
    | none => .error .keyError
    | some table =>
        match table.choose relig_name rand with
        | .ok res => .ok res
        | .error .emptyPmf => tm.up_table.choose relig_name rand
        | .error e => .error e
  else tm.up_table.choose relig_name rand

/-- TransitionModel2.choose_transmission: the decade table when the flag is
set (no fallback), the pooled table otherwise. -/
def TransitionModel2.choose_transmission (tm : TransitionModel2)
    (yrborn : Int) (relig_name : String) (rand : RandSrc) :
    Except GssError (String × RandSrc) :=
  if tm.decade_flag then
    let decade := yrborn.fdiv 10 * 10
    match dictLookup tm.trans_tables decade with
    | none => .error .keyError
    | some table => table.choose relig_name rand
  else tm.trans_table.choose relig_name rand

/-- Respondent.make_child: the child keeps a reference to the parent,
takes the next identifier from the shared counter (get_next_id), inherits
the parent weight, is stamped with the given birth year, and receives its
upbringing and adult affiliation from the transition model.  Attributes
the Python leaves unset on the fresh Respondent are given inert defaults
here; no verified path reads them. -/
def Respondent.make_child (parent : Respondent) (yrborn : Int)
    (tm : TransitionModel2) (rand : RandSrc) (counter : Nat) :
    Except GssError (Respondent × RandSrc × Nat) := do
  let (relig16, rand1) ← tm.choose_upbringing yrborn parent.relig_name rand
  let (relig, rand2) ← tm.choose_transmission yrborn relig16 rand1
  .ok (.mk counter parent.compwt 0 (some yrborn) 0 relig relig16
        "NA" "NA" none 0 0 [] (some parent), rand2, counter + 1)

/-- BirthModel of gss.py: the observed ages, the dense per-age hazard
array (numpy zeros of length 90 with observed entries filled in), and the
derived sampling distribution built once at construction. -/
structure BirthModel where
  all_ages : List Nat
  table : List ℚ
  age_pmf : Pmf Nat
  age_cdf : Cdf Nat
  deriving DecidableEq

/-- Accumulation loop of BirthModel.get_pmf: weights each observed age by
its hazard entry (IndexError past the end of the array). -/
def birthPmfLoop (table : List ℚ) :
    List Nat → Pmf Nat → Except GssError (Pmf Nat)
  | [], pmf => .ok pmf
  | age :: rest, pmf => do
      let w ← pyindex table age
      birthPmfLoop table rest (pmf.Incr age w)

/-- BirthModel construction: builds and normalizes the age distribution
(ValueError when the hazard mass is zero) and the sampling CDF. -/
def BirthModel.make (all_ages : List Nat) (table : List ℚ) :
    Except GssError BirthModel := do
  let raw ← birthPmfLoop table all_ages ⟨[]⟩
  let pmf ← raw.Normalize
  .ok ⟨all_ages, table, pmf, Cdf.MakeCdfFromItems pmf.items⟩

/-- BirthModel.random_age: one draw from the age CDF. -/
def BirthModel.random_age (bm : BirthModel) (rand : RandSrc) :
    Except GssError (Nat × RandSrc) :=
  bm.age_cdf.Random rand

/-- BirthModel.prob: indexes the dense hazard array directly; an in-range
age reads its stored entry (0 when never observed), an out-of-range age
raises IndexError. -/
def BirthModel.prob (bm : BirthModel) (age : Nat) : Except GssError ℚ :=
  if h : age < bm.table.length then .ok (bm.table.get ⟨age, h⟩)
  else .error .indexError

/-- Respondent loop of TransitionModel2.simulate_generation: parents with
unknown affiliation or unknown birth year are skipped; each other parent
contributes one child built from a sampled childbearing age, added to the
accumulating survey under its fresh caseid. -/
def simGenLoop (tm : TransitionModel2) (bm : BirthModel) :
    List (Nat × Respondent) → List (Nat × Respondent) → RandSrc → Nat →
    Except GssError (List (Nat × Respondent) × RandSrc × Nat)
  | [], acc, rand, counter => .ok (acc, rand, counter)
  | (_, parent) :: rest, acc, rand, counter =>
      if parent.relig_name = "NA" ∨ parent.yrborn = none then
        simGenLoop tm bm rest acc rand counter
      else do
        let (age_when_born, rand1) ← bm.random_age rand
        let yrborn := parent.yrborn.getD 0 + age_when_born
        let (child, rand2, counter1) ←
          parent.make_child yrborn tm rand1 counter
        simGenLoop tm bm rest (dictInsert acc child.caseid child)
          rand2 counter1

/-- TransitionModel2.simulate_generation: one child per usable parent. -/
def TransitionModel2.simulate_generation (tm : TransitionModel2)
    (survey : Survey) (bm : BirthModel) (rand : RandSrc) (counter : Nat) :
    Except GssError (Survey × RandSrc × Nat) := do
  let (rs, rand1, counter1) ← simGenLoop tm bm survey.rs [] rand counter
  .ok (⟨rs⟩, rand1, counter1)

/-- Python random.choice: indexes the sequence at the integer part of a
unit draw scaled by the length. -/
def pychoice {α : Type} (xs : List α) (rand : RandSrc) :
    Except GssError (α × RandSrc) :=
  if h : 0 ≤ (rand.next.1 * xs.length).floor ∧
      (rand.next.1 * xs.length).floor < (xs.length : Int) then
    .ok (xs.get ⟨(rand.next.1 * xs.length).floor.toNat, by omega⟩,
      rand.next.2)
  else .error .indexError

/-- EnvironmentTable of gss.py: cells keyed by the pair of the mother and
father affiliations. -/
structure EnvironmentTable where
  table : List ((String × String) × Pmf String)
  hist : Hist (String × String)
  deriving DecidableEq

/-- Accumulation loop of the EnvironmentTable constructor: records with
the sentinel NA on any of the three attributes are skipped. -/
def envTabLoop :
    List (Nat × Respondent) → List ((String × String) × Pmf String) →
    Hist (String × String) →
    Except GssError (List ((String × String) × Pmf String) ×
      Hist (String × String))
  | [], tbl, hist => .ok (tbl, hist)
  | (_, r) :: rest, tbl, hist =>
      let ma := r.marelig_name
      let pa := r.parelig_name
      let raised := r.relig16_name
      if ma = "NA" ∨ pa = "NA" ∨ raised = "NA" then
        envTabLoop rest tbl hist
      else do
        let pmf ← dictIndex tbl (ma, pa)
        envTabLoop rest (dictInsert tbl (ma, pa) (pmf.Incr raised r.compwt))
          (hist.Incr (ma, pa) 1)

/-- Cell normalization at the end of the EnvironmentTable constructor,
the same normalize_table of gss.py applied to pair-keyed cells. -/
def normalize_env_table (tbl : List ((String × String) × Pmf String)) :
    List ((String × String) × Pmf String) :=
  tbl.map fun p =>
    match p.2.Normalize with
    | .ok q => (p.1, q)
    | .error _ => p

/-- EnvironmentTable constructor: one cell per pair of ORDER names, filled
from the survey and then normalized where nonempty. -/
def EnvironmentTable.make (s : Survey) : Except GssError EnvironmentTable := do
  let init := (ORDER.map fun ma =>
    ORDER.map fun pa => ((ma, pa), (⟨[]⟩ : Pmf String))).flatten
  let (tbl, hist) ← envTabLoop s.rs init ⟨[]⟩
  .ok ⟨normalize_env_table tbl, hist⟩

/-- EnvironmentTable.generate_raised: samples the cell when its total
weight is truthy (nonzero), otherwise picks uniformly between the two
parents own affiliations. -/
def EnvironmentTable.generate_raised (et : EnvironmentTable)
    (ma pa : String) (rand : RandSrc) :
    Except GssError (String × RandSrc) := do
  let pmf ← dictIndex et.table (ma, pa)
  if pmf.Total ≠ 0 then pmf.Random rand
  else pychoice [ma, pa] rand

/-- Generation of gss.py: the merged survey of synthesized children and
survivors, the requested resample size, and the target age distribution. -/
structure Generation where
  survey : Survey
  n : Nat
  age_pmf : Pmf Int

/-- Generation.simulate: one importance-weighted resample of the merged
survey for the given prediction year. -/
def Generation.simulate (g : Generation) (predict_year : Int)
    (rand : RandSrc) : Except GssError (Survey × RandSrc) :=
  g.survey.resample_by_age g.n predict_year g.age_pmf rand

/-- Cohort of gss.py, holding the fields its constructor assembles; the
constructor itself reads CSV files (ingestion, out of scope). -/
structure Cohort where
  survey : Survey
  trans_model : TransitionModel2
  birth_model : BirthModel

/-- Python range(start, stop, step) over integers for a positive step. -/
def pyrange (start stop step : Int) : List Int :=
  if step ≤ 0 then []
  else (List.range (((stop - start) + step - 1).fdiv step).toNat).map
    fun i => start + step * i

/-- Cohort.extrapolate_transition_model: back-fills both per-decade maps
from the source decade into every later decade up to 2050; a missing
source table surfaces the error to the caller unchanged. -/
def Cohort.extrapolate_transition_model (tm : TransitionModel2)
    (source_year : Int) : Except GssError TransitionModel2 := do
  let dest_years := pyrange (source_year + 10) 2050 10
  let up ← TransitionModel2.extend_tables tm.up_tables source_year dest_years
  let tr ← TransitionModel2.extend_tables tm.trans_tables source_year
    dest_years
  .ok { tm with up_tables := up, trans_tables := tr }

/-- Cohort.make_next_generation: records the parent-survey size and age
distribution, synthesizes the children, and merges the parents back in. -/
def Cohort.make_next_generation (c : Cohort) (survey_year : Int)
    (survey : Survey) (rand : RandSrc) (counter : Nat) :
    Except GssError (Generation × RandSrc × Nat) := do
  let n := survey.len
  let age_pmf ← survey.make_age_pmf survey_year
  let (next_gen, rand1, counter1) ←
    c.trans_model.simulate_generation survey c.birth_model rand counter
  let merged := next_gen.add_respondents (survey.rs.map Prod.snd)
  .ok (⟨merged, n, age_pmf⟩, rand1, counter1)

/-- Per-year loop of Cohort.run_simulation: every year resamples from the
same Generation object. -/
def runSimYears (g : Generation) :
    List Int → RandSrc → Except GssError (List (Int × Survey) × RandSrc)
  | [], rand => .ok ([], rand)
  | year :: rest, rand => do
      let (simulated, rand1) ← g.simulate year rand
      let (pairs, rand2) ← runSimYears g rest rand1
      .ok ((year, simulated) :: pairs, rand2)

/-- Python range(start, end + 1) over integers. -/
def intRangeIncl (a b : Int) : List Int :=
  (List.range (b + 1 - a).toNat).map fun i => a + (i : Int)

/-- Cohort.run_simulation: restricts the source survey to the start year,
builds the next generation once, then produces one resampled survey per
year in the inclusive range. -/
def Cohort.run_simulation (c : Cohort) (start_year end_year : Int)
    (rand : RandSrc) (counter : Nat) :
    Except GssError (List (Int × Survey) × RandSrc × Nat) := do
  let start_survey := c.survey.subsample fun r => r.year == start_year
  let (generation, rand1, counter1) ←
    c.make_next_generation start_year start_survey rand counter
  let (surveys, rand2) ← runSimYears generation
    (intRangeIncl start_year end_year) rand1
  .ok (surveys, rand2, counter1)

theorem tailLengthSum_le {α : Type} (data : List (List α)) :
    ((data.map List.tail).map List.length).sum ≤
      (data.map List.length).sum := by
  induction data with
  | nil => simp
  | cons d rest ih =>
    simp only [List.map_cons, List.sum_cons]
    have : d.tail.length ≤ d.length := by
      cases d <;> simp
    omega

/-- Python zip(*data): the list of columns, cut off at the shortest row;
empty as soon as the argument list is empty or some row is empty. -/
def pyzip {α : Type} (data : List (List α)) : List (List α) :=
  if h : data.isEmpty ∨ data.any List.isEmpty then []
  else
    data.filterMap List.head? :: pyzip (data.map List.tail)
termination_by (data.map List.length).sum
decreasing_by
  simp only [not_or, List.isEmpty_iff, List.any_eq_true, not_exists,
    not_and] at h
  obtain ⟨hne, hrows⟩ := h
  cases data with
  | nil => exact absurd rfl hne
  | cons d rest =>
    simp only [List.map_cons, List.sum_cons]
    have hd : d ≠ [] := by
      intro hd
      exact hrows d (by simp) (by simp [hd])
    have h1 : d.tail.length < d.length := by
      cases d with
      | nil => exact absurd rfl hd
      | cons a t => simp
    have h2 := tailLengthSum_le rest
    omega

/-- Modelled from the spec: thinkstats.Mean (thinkstats.py is part of this
repository but not under src/), the arithmetic mean, raising on an empty
argument as Python float division does. -/
def Mean (xs : List ℚ) : Except GssError ℚ :=
  pydiv xs.sum xs.length

/-- Per-column loop of Survey.extract_predictions: mean across trials,
then the span from the sorted trial outcomes at positions 1 and -2. -/
def extractLoop : List (List ℚ) → Except GssError (List (ℚ × (ℚ × ℚ)))
  | [] => .ok []
  | col :: rest => do
      let mean ← Mean col
      let sorted := List.insertionSort (fun a b : ℚ => a ≤ b) col
      let lo ← pyindex sorted 1
      let hi ← pyindex sorted (-2)
      let tail ← extractLoop rest
      .ok ((mean, (lo, hi)) :: tail)

/-- Survey.extract_predictions: one (mean, span) pair per tracked
component of the per-trial outcome vectors. -/
def Survey.extract_predictions (data : List (List ℚ)) :
    Except GssError (List (ℚ × (ℚ × ℚ))) :=
  extractLoop (pyzip data)

/-- Inner loop of Respondent.ages_when_child_born over the child indices:
a missing kdyrbrn attribute raises AttributeError, a cleaned NA value makes
the whole result NA, and an unknown parent birth year makes the Python
subtraction raise TypeError. -/
def agesLoopAux (r : Respondent) :
    List Nat → List Int → Except GssError (Option (List Int))
  | [], acc => .ok (some acc.reverse)
  | i :: rest, acc =>
      match r.kdyrbrn.get? (i - 1) with
      | none => .error .attributeError
      | some none => .ok none
      | some (some child_born) =>
          match r.yrborn with
          | none => .error .typeError
          | some yb => agesLoopAux r rest ((child_born - yb) :: acc)

/-- Respondent.ages_when_child_born: the ages at which this respondent had
children, or NA (none) when any child has an unknown birth year. -/
def Respondent.ages_when_child_born (r : Respondent) :
    Except GssError (Option (List Int)) :=
  agesLoopAux r ((List.range r.childs).map (· + 1)) []

/-- Survey.iterate_respondent_child_ages: skips respondents with unknown
birth year and respondents whose child ages come out NA. -/
def iterChildAgesLoop :
    List (Nat × Respondent) → Except GssError (List (Respondent × List Int))
  | [] => .ok []
  | (_, r) :: rest =>
      match r.yrborn with
      | none => iterChildAgesLoop rest
      | some _ => do
          let ages ← r.ages_when_child_born
          let tail ← iterChildAgesLoop rest
          match ages with
          | none => .ok tail
          | some ages => .ok ((r, ages) :: tail)

/-- One observation of the birth histogram: creates the Hist cell for the
age on first use and counts whether this parent had a child at that age. -/
def birthIncr (d : List (Nat × Hist Bool)) (age : Nat) (b : Bool) :
    List (Nat × Hist Bool) :=
  dictInsert d age (((dictLookup d age).getD ⟨[]⟩).Incr b 1)

/-- The decade guard of Survey.make_birth_model.  In the Python the
comparison r.decade < 1940 never skips a record whose decade carries the
string sentinel NA, because a Python 2 number compares below any string. -/
def decadeBelowCutoff (d : Option Int) : Bool :=
  match d with
  | none => false
  | some v => v < 1940

/-- Outer loop of Survey.make_birth_model: for each qualifying parent,
records a yes or no observation for every age from 13 below the parent
age at the survey. -/
def birthHistLoop :
    List (Respondent × List Int) → List (Nat × Hist Bool) →
    List (Nat × Hist Bool)
  | [], d => d
  | (r, ages) :: rest, d =>
      if decadeBelowCutoff r.decade then birthHistLoop rest d
      else
        birthHistLoop rest
          ((List.range' 13 (r.age - 13)).foldl
            (fun d1 age => birthIncr d1 age (decide ((age : Int) ∈ ages))) d)

/-- Numpy element assignment table[i] = v with bounds check. -/
def pySetIndex (xs : List ℚ) (i : Nat) (v : ℚ) :
    Except GssError (List ℚ) :=
  if i < xs.length then .ok (xs.set i v) else .error .indexError

/-- Hazard-table loop of Survey.make_birth_model: for each observed age in
ascending order, stores yes over yes plus no into the dense array. -/
def birthTableLoop :
    List (Nat × Hist Bool) → List ℚ → Except GssError (List ℚ)
  | [], t => .ok t
  | (age, hist) :: rest, t => do
      let yes := hist.Freq true
      let no := hist.Freq false
      let v ← pydiv yes (yes + no)
      let t1 ← pySetIndex t age v
      birthTableLoop rest t1

/-- Survey.make_birth_model: accumulates the per-age yes and no histogram
over qualifying parents, writes the hazards into a dense length-90 zero
array, and builds the BirthModel from the observed ages and that array.
The observed-age set is iterated in dictionary order; a Python 2 set has
no specified order, and no result below depends on it. -/
def Survey.make_birth_model (s : Survey) : Except GssError BirthModel := do
  let pairs ← iterChildAgesLoop s.rs
  let d := birthHistLoop pairs []
  let table ← birthTableLoop
    (List.insertionSort (fun a b : Nat × Hist Bool => a.1 ≤ b.1) d)
    (List.replicate 90 0)
  BirthModel.make (d.map Prod.fst) table

/-- Inversion of a successful Except bind. -/
theorem exceptBind_ok {ε α β : Type} {x : Except ε α} {f : α → Except ε β}
    {b : β} (h : (x >>= f) = Except.ok b) :
    ∃ a, x = .ok a ∧ f a = .ok b := by
  cases x with
  | error e => simp [bind, Except.bind] at h
  | ok a => exact ⟨a, rfl, by simpa [bind, Except.bind] using h⟩

theorem Cdf.Sample_length {α : Type} (cdf : Cdf α) (n : Nat)
    (rand rand' : RandSrc) (ids : List α)
    (h : cdf.Sample n rand = .ok (ids, rand')) : ids.length = n := by
  induction n generalizing rand ids with
  | zero =>
    simp only [Cdf.Sample, Except.ok.injEq, Prod.mk.injEq] at h
    simp [← h.1]
  | succ m ih =>
    unfold Cdf.Sample at h
    obtain ⟨vr, hr, h⟩ := exceptBind_ok h
    obtain ⟨pr, hs, h⟩ := exceptBind_ok h
    simp only [Except.ok.injEq, Prod.mk.injEq] at h
    have := ih vr.2 pr.1 (by rw [hs, ← h.2])
    rw [← h.1]
    simp [this]

theorem Cdf.Random_mem {α : Type} [LinearOrder α] (items : List (α × ℚ))
    (rand rand' : RandSrc) (v : α)
    (h : (Cdf.MakeCdfFromItems items).Random rand = .ok (v, rand')) :
    v ∈ items.map Prod.fst := by
  simp only [Cdf.Random] at h
  by_cases h0 : (Cdf.MakeCdfFromItems items).total = 0
  · rw [if_pos h0] at h; simp at h
  · rw [if_neg h0] at h
    cases hv : (Cdf.MakeCdfFromItems items).value
        ((rand.next.1) * (Cdf.MakeCdfFromItems items).total) with
    | error e => rw [hv] at h; simp [Except.map] at h
    | ok w =>
      rw [hv] at h
      simp only [Except.map, Except.ok.injEq, Prod.mk.injEq] at h
      obtain ⟨hw, _⟩ := h
      subst hw
      unfold Cdf.value at hv
      cases hf : (Cdf.MakeCdfFromItems items).items.find?
          (fun p => rand.next.1 * (Cdf.MakeCdfFromItems items).total ≤ p.2) with
      | none => rw [hf] at hv; simp at hv
      | some p =>
        rw [hf] at hv
        simp only [Except.ok.injEq] at hv
        subst hv
        have hmem : p ∈ (Cdf.MakeCdfFromItems items).items :=
          List.mem_of_find?_eq_some hf
        have hmem2 : p.1 ∈ (Cdf.MakeCdfFromItems items).items.map Prod.fst :=
          List.mem_map_of_mem _ hmem
        unfold Cdf.MakeCdfFromItems at hmem2
        simp only at hmem2
        rw [runningSums_map_fst] at hmem2
        exact ((List.perm_insertionSort _ items).map Prod.fst).mem_iff.mp hmem2

theorem Cdf.Sample_mem {α : Type} [LinearOrder α] (items : List (α × ℚ))
    (n : Nat) (rand rand' : RandSrc) (ids : List α)
    (h : (Cdf.MakeCdfFromItems items).Sample n rand = .ok (ids, rand')) :
    ∀ v ∈ ids, v ∈ items.map Prod.fst := by
  induction n generalizing rand ids with
  | zero =>
    simp only [Cdf.Sample, Except.ok.injEq, Prod.mk.injEq] at h
    rw [← h.1]
    simp
  | succ m ih =>
    unfold Cdf.Sample at h
    obtain ⟨vr, hr, h⟩ := exceptBind_ok h
    obtain ⟨pr, hs, h⟩ := exceptBind_ok h
    simp only [Except.ok.injEq, Prod.mk.injEq] at h
    intro v hv
    rw [← h.1] at hv
    rcases List.mem_cons.mp hv with hv | hv
    · subst hv
      exact Cdf.Random_mem items rand vr.2 vr.1 (by rw [← hr])
    · exact ih vr.2 pr.1 (by rw [hs, ← h.2]) v hv

theorem resampleDictLoop_spec (s : Survey) (ids : List Nat) (i : Nat)
    (pairs : List (Nat × Respondent))
    (h : resampleDictLoop s ids i = .ok pairs) :
    pairs.length = ids.length ∧
    pairs.map Prod.fst = List.range' i ids.length ∧
    ∀ j caseid, ids.get? j = some caseid →
      ∃ r, dictLookup s.rs caseid = some r ∧ pairs.get? j = some (i + j, r) := by
  induction ids generalizing i pairs with
  | nil =>
    simp only [resampleDictLoop, Except.ok.injEq] at h
    subst h
    refine ⟨rfl, by simp [List.range'], ?_⟩
    intro j caseid hj
    simp at hj
  | cons caseid rest ih =>
    unfold resampleDictLoop at h
    obtain ⟨r, hr, h⟩ := exceptBind_ok h
    obtain ⟨tail, ht, h⟩ := exceptBind_ok h
    simp only [Except.ok.injEq] at h
    subst h
    obtain ⟨hlen, hkeys, hval⟩ := ih (i + 1) tail ht
    refine ⟨by simp [hlen], ?_, ?_⟩
    · simp [hkeys, List.range'_succ]
    · intro j c hj
      cases j with
      | zero =>
        simp only [List.get?] at hj
        cases hj
        unfold dictIndex at hr
        cases hl : dictLookup s.rs caseid with
        | none => rw [hl] at hr; simp at hr
        | some rr =>
          rw [hl] at hr
          simp only [Except.ok.injEq] at hr
          subst hr
          exact ⟨rr, rfl, by simp⟩
      | succ m =>
        simp only [List.get?] at hj
        obtain ⟨rr, hrr, hg⟩ := hval m c hj
        refine ⟨rr, hrr, ?_⟩
        simp only [List.get?]
        rw [show i + (m + 1) = i + 1 + m from by omega]
        exact hg

theorem resampleDictLoop_ok (s : Survey) (ids : List Nat) (i : Nat)
    (hmem : ∀ id ∈ ids, (dictLookup s.rs id).isSome) :
    ∃ pairs, resampleDictLoop s ids i = .ok pairs := by
  induction ids generalizing i with
  | nil => exact ⟨[], rfl⟩
  | cons caseid rest ih =>
    have hhead := hmem caseid (by simp)
    obtain ⟨r, hr⟩ := Option.isSome_iff_exists.mp hhead
    obtain ⟨tail, htail⟩ := ih (i + 1) (fun id hid => hmem id (by simp [hid]))
    refine ⟨(i, r) :: tail, ?_⟩
    simp only [resampleDictLoop, dictIndex, hr, htail, bind, Except.bind]

/-- Claim C10: Survey.resample_by_cdf returns, whenever the n draws from
the CDF succeed and every drawn identifier is a key of the survey, a new
Survey of exactly n entries whose keys are the consecutive integers 0 to
n - 1, in which the entry at position j holds the very record stored in
the source survey under the j-th drawn identifier; an identifier drawn
several times therefore appears under that many distinct keys, all bound
to one record, and the original identifiers are not the keys of the
result. -/
theorem claim_C10_resample_by_cdf (s : Survey) (cdf : Cdf Nat) (n : Nat)
    (rand rand1 : RandSrc) (ids : List Nat)
    (hids : cdf.Sample n rand = .ok (ids, rand1))
    (hmem : ∀ id ∈ ids, (dictLookup s.rs id).isSome) :
    ∃ s2, s.resample_by_cdf cdf n rand = .ok (s2, rand1) ∧
      s2.rs.length = n ∧
      s2.rs.map Prod.fst = List.range n ∧
      ∀ j caseid, ids.get? j = some caseid →
        ∃ r, dictLookup s.rs caseid = some r ∧ s2.rs.get? j = some (j, r) := by
  obtain ⟨pairs, hpairs⟩ := resampleDictLoop_ok s ids 0 hmem
  obtain ⟨hlen, hkeys, hval⟩ := resampleDictLoop_spec s ids 0 pairs hpairs
  have hn : ids.length = n := Cdf.Sample_length cdf n rand rand1 ids hids
  refine ⟨⟨pairs⟩, ?_, by simp [Survey.rs, hlen, hn], ?_, ?_⟩
  · unfold Survey.resample_by_cdf
    simp only [hids, hpairs, bind, Except.bind]
  · show pairs.map Prod.fst = List.range n
    rw [hkeys, hn, List.range_eq_range']
  · intro j caseid hj
    obtain ⟨r, hr, hg⟩ := hval j caseid hj
    exact ⟨r, hr, by simpa using hg⟩

/-- Fixed record for concrete witnesses. -/
def rW : Respondent :=
  .mk 5 1 2000 (some 1970) 2 "prot" "prot" "NA" "NA" (some 1970) 30 0 [] none

/-- Constant-zero random source for concrete witnesses. -/
def rand0 : RandSrc := ⟨[]⟩

theorem claim_C10_resample_by_cdf_witness :
    ∃ s2, (Survey.resample_by_cdf ⟨[(5, rW)]⟩
        (Cdf.MakeCdfFromItems [(5, (1 : ℚ))]) 2 rand0) =
        .ok (s2, rand0) ∧
      s2.rs.length = 2 ∧
      s2.rs.map Prod.fst = List.range 2 ∧
      ∀ j caseid, ([5, 5] : List Nat).get? j = some caseid →
        ∃ r, dictLookup (⟨[(5, rW)]⟩ : Survey).rs caseid = some r ∧
          s2.rs.get? j = some (j, r) :=
  claim_C10_resample_by_cdf ⟨[(5, rW)]⟩ (Cdf.MakeCdfFromItems [(5, (1 : ℚ))])
    2 rand0 rand0 [5, 5] (by decide) (by decide)

theorem foldl_dictInsert_const {β : Type} (dest_years : List Int) (src : β) :
    ∀ (acc : List (Int × β)) (k : Int),
      (k ∈ dest_years ∨ dictLookup acc k = some src) →
      dictLookup (dest_years.foldl (fun t d => dictInsert t d src) acc) k
        = some src := by
  induction dest_years with
  | nil =>
    intro acc k hk
    rcases hk with hk | hk
    · simp at hk
    · simpa using hk
  | cons y ys ih =>
    intro acc k hk
    simp only [List.foldl_cons]
    rcases hk with hk | hk
    · rcases List.mem_cons.mp hk with hk | hk
      · subst hk
        exact ih _ k (Or.inr (dictLookup_insert_self acc k src))
      · exact ih _ k (Or.inl hk)
    · by_cases hky : k = y
      · subst hky
        exact ih _ k (Or.inr (dictLookup_insert_self acc k src))
      · refine ih _ k (Or.inr ?_)
        rw [dictLookup_insert_other acc y k src hky]
        exact hk

/-- Claim C4: when the source decade has a table, extend_tables succeeds
and afterwards every destination decade is bound to the very value (object
reference) bound to the source decade, so all back-filled decades share
that one object. -/
theorem claim_C4_extend_tables_aliases {β : Type} (tables : List (Int × β))
    (source_year : Int) (dest_years : List Int) (src : β)
    (hsrc : dictLookup tables source_year = some src) :
    ∃ t2, TransitionModel2.extend_tables tables source_year dest_years
        = .ok t2 ∧
      dictLookup t2 source_year = some src ∧
      ∀ d ∈ dest_years,
        dictLookup t2 d = some src ∧
        dictLookup t2 d = dictLookup t2 source_year := by
  refine ⟨dest_years.foldl (fun t d => dictInsert t d src) tables, ?_, ?_, ?_⟩
  · unfold TransitionModel2.extend_tables
    rw [hsrc]
  · exact foldl_dictInsert_const dest_years src tables source_year
      (Or.inr hsrc)
  · intro d hd
    have h1 := foldl_dictInsert_const dest_years src tables d (Or.inl hd)
    have h2 := foldl_dictInsert_const dest_years src tables source_year
      (Or.inr hsrc)
    exact ⟨h1, by rw [h1, h2]⟩

theorem claim_C4_extend_tables_aliases_witness :
    ∃ t2, TransitionModel2.extend_tables [((1980 : Int), (7 : Nat))] 1980
        [1990, 2000, 2010] = .ok t2 ∧
      dictLookup t2 1980 = some 7 ∧
      ∀ d ∈ [(1990 : Int), 2000, 2010],
        dictLookup t2 d = some 7 ∧ dictLookup t2 d = dictLookup t2 1980 :=
  claim_C4_extend_tables_aliases [((1980 : Int), (7 : Nat))] 1980
    [1990, 2000, 2010] 7 (by decide)

/-- Claim C5: asked to copy from a decade with no table, extend_tables
raises the missing-decade error (the uncaught KeyError of the Python), and
the caller Cohort.extrapolate_transition_model surfaces that same error
instead of defaulting. -/
theorem claim_C5_extend_tables_missing (tm : TransitionModel2)
    (source_year : Int)
    (hnone : dictLookup tm.up_tables source_year = none) :
    TransitionModel2.extend_tables tm.up_tables source_year
        (pyrange (source_year + 10) 2050 10) = .error .missingDecade ∧
    Cohort.extrapolate_transition_model tm source_year
        = .error .missingDecade := by
  constructor
  · unfold TransitionModel2.extend_tables
    rw [hnone]
  · unfold Cohort.extrapolate_transition_model
    have h1 : TransitionModel2.extend_tables tm.up_tables source_year
        (pyrange (source_year + 10) 2050 10) = .error .missingDecade := by
      unfold TransitionModel2.extend_tables
      rw [hnone]
    simp only [h1, bind, Except.bind]

/-- Transition model with no decade tables, for concrete witnesses. -/
def tmEmpty : TransitionModel2 :=
  ⟨false, ⟨[], ⟨[]⟩⟩, ⟨[], ⟨[]⟩⟩, [], []⟩

theorem claim_C5_extend_tables_missing_witness :
    TransitionModel2.extend_tables tmEmpty.up_tables 1980
        (pyrange 1990 2050 10) = .error .missingDecade ∧
    Cohort.extrapolate_transition_model tmEmpty 1980
        = .error .missingDecade :=
  claim_C5_extend_tables_missing tmEmpty 1980 (by rfl)

/-- The j-th tracked component across trials: the j-th entry of every
outcome vector. -/
def column (data : List (List ℚ)) (j : Nat) : List ℚ :=
  data.filterMap fun row => row.get? j

theorem column_zero (data : List (List ℚ)) :
    column data 0 = data.filterMap List.head? := by
  unfold column
  congr 1
  funext row
  cases row <;> simp

theorem column_succ_tail (data : List (List ℚ)) (j : Nat) :
    column (data.map List.tail) j = column data (j + 1) := by
  unfold column
  rw [List.filterMap_map]
  congr 1
  funext row
  cases row <;> simp

theorem column_length (data : List (List ℚ)) (k j : Nat)
    (hk : ∀ row ∈ data, row.length = k) (hj : j < k) :
    (column data j).length = data.length := by
  induction data with
  | nil => simp [column]
  | cons row rest ih =>
    have hrow : j < row.length := by
      rw [hk row (by simp)]
      exact hj
    have hrest := ih fun r hr => hk r (by simp [hr])
    unfold column at hrest ⊢
    rw [List.filterMap_cons, List.get?_eq_get hrow]
    simp [hrest]
    intro a ha
    have hja : j < a.length := by
      rw [hk a (by simp [ha])]
      exact hj
    simp [List.getElem?_eq_getElem hja]

theorem pyzip_eq_columns (k : Nat) :
    ∀ (data : List (List ℚ)), data ≠ [] →
      (∀ row ∈ data, row.length = k) →
      pyzip data = (List.range k).map (column data) := by
  induction k with
  | zero =>
    intro data hne hk
    have hany : data.any List.isEmpty := by
      cases data with
      | nil => exact absurd rfl hne
      | cons row rest =>
        have hrow : row.length = 0 := hk row (by simp)
        simp [List.isEmpty_iff, List.length_eq_zero.mp hrow]
    rw [pyzip]
    simp [hany]
  | succ m ih =>
    intro data hne hk
    have hcond : ¬ (data.isEmpty ∨ data.any List.isEmpty) := by
      simp only [not_or, List.any_eq_true, not_exists, not_and]
      constructor
      · simpa [List.isEmpty_iff] using hne
      · intro row hrow
        have : row.length = m + 1 := hk row hrow
        simp [List.isEmpty_iff]
        intro hempty
        rw [hempty] at this
        simp at this
    rw [pyzip]
    rw [dif_neg hcond]
    have htails : ∀ row ∈ data.map List.tail, row.length = m := by
      intro row hrow
      obtain ⟨r, hr, hrt⟩ := List.mem_map.mp hrow
      have := hk r hr
      rw [← hrt]
      simp [this]
    have hmapne : data.map List.tail ≠ [] := by
      cases data with
      | nil => exact absurd rfl hne
      | cons a b => simp
    rw [ih (data.map List.tail) hmapne htails]
    rw [List.range_succ_eq_map]
    simp only [List.map_cons, List.map_map]
    congr 1
    · exact (column_zero data).symm
    · congr 1
      funext j
      show column (data.map List.tail) j = column data (j + 1)
      exact column_succ_tail data j

theorem pyindex_nat {α : Type} (xs : List α) (n : Nat) (h : n < xs.length) :
    ∃ v, pyindex xs (n : Int) = .ok v ∧ xs.get? n = some v := by
  have hn0 : ¬ ((n : Int) < 0) := by omega
  simp only [pyindex, hn0, if_false]
  rw [dif_pos ⟨by omega, by exact_mod_cast h⟩]
  refine ⟨_, rfl, ?_⟩
  have htn : ((n : Int)).toNat = n := Int.toNat_natCast n
  rw [List.get?_eq_get (by omega : n < xs.length)]
  simp [htn]

theorem pyindex_neg_two {α : Type} (xs : List α) (h : 2 ≤ xs.length) :
    ∃ v, pyindex xs (-2) = .ok v ∧ xs.get? (xs.length - 2) = some v := by
  have hneg : ((-2 : Int) < 0) := by norm_num
  simp only [pyindex, hneg, if_true]
  rw [dif_pos ⟨by omega, by omega⟩]
  refine ⟨_, rfl, ?_⟩
  have htn : ((-2 : Int) + xs.length).toNat = xs.length - 2 := by omega
  rw [List.get?_eq_get (by omega : xs.length - 2 < xs.length)]
  simp [htn]

theorem extractLoop_spec (m : Nat) (h2 : 2 ≤ m) :
    ∀ (cols : List (List ℚ)), (∀ col ∈ cols, col.length = m) →
      ∃ preds, extractLoop cols = .ok preds ∧
        preds.length = cols.length ∧
        ∀ idx col, cols.get? idx = some col →
          ∃ lo hi, preds.get? idx = some (col.sum / m, (lo, hi)) ∧
            (List.insertionSort (fun a b : ℚ => a ≤ b) col).get? 1
              = some lo ∧
            (List.insertionSort (fun a b : ℚ => a ≤ b) col).get? (m - 2)
              = some hi := by
  intro cols
  induction cols with
  | nil =>
    intro _
    refine ⟨[], rfl, rfl, ?_⟩
    intro idx col h
    simp at h
  | cons col rest ih =>
    intro hlen
    have hcol : col.length = m := hlen col (by simp)
    obtain ⟨tail, htail, htlen, hti⟩ := ih fun c hc => hlen c (by simp [hc])
    have hsortlen : (List.insertionSort (fun a b : ℚ => a ≤ b) col).length
        = m := by
      rw [(List.perm_insertionSort (fun a b : ℚ => a ≤ b) col).length_eq]
      exact hcol
    have hmean : Mean col = .ok (col.sum / m) := by
      unfold Mean pydiv
      rw [if_neg]
      · rw [hcol]
      · rw [hcol]
        exact_mod_cast (by omega : ¬ (m = 0))
    obtain ⟨lo, hlo, hlog⟩ := pyindex_nat
      (List.insertionSort (fun a b : ℚ => a ≤ b) col) 1 (by omega)
    obtain ⟨hi, hhi, hhig⟩ := pyindex_neg_two
      (List.insertionSort (fun a b : ℚ => a ≤ b) col) (by omega)
    rw [hsortlen] at hhig
    refine ⟨(col.sum / m, (lo, hi)) :: tail, ?_, by simp [htlen], ?_⟩
    · unfold extractLoop
      have h1 : ((1 : Nat) : Int) = (1 : Int) := rfl
      rw [← h1]
      simp only [hmean, hlo, hhi, htail, bind, Except.bind]
    · intro idx c hc
      cases idx with
      | zero =>
        simp only [List.get?] at hc
        cases hc
        exact ⟨lo, hi, by simp, hlog, hhig⟩
      | succ i =>
        simp only [List.get?] at hc ⊢
        exact hti i c hc

/-- All stored weights of a distribution are nonnegative. -/
def Pmf.Nonneg {α : Type} (pmf : Pmf α) : Prop :=
  ∀ p ∈ pmf.items, 0 ≤ p.2

theorem incrItems_nonneg {α : Type} [DecidableEq α]
    (v : α) (w : ℚ) (hw : 0 ≤ w) :
    ∀ (items : List (α × ℚ)), (∀ p ∈ items, 0 ≤ p.2) →
      ∀ p ∈ incrItems items v w, 0 ≤ p.2 := by
  intro items
  induction items with
  | nil =>
    intro h0 p hp
    simp only [incrItems, List.mem_singleton] at hp
    subst hp
    exact hw
  | cons q rest ih =>
    intro h0 p hp
    by_cases hq : q.1 = v
    · rw [incrItems, if_pos hq] at hp
      rcases List.mem_cons.mp hp with hp | hp
      · subst hp
        have hq2 := h0 q (by simp)
        simpa using add_nonneg hq2 hw
      · exact h0 p (List.mem_cons_of_mem _ hp)
    · rw [incrItems, if_neg hq] at hp
      rcases List.mem_cons.mp hp with hp | hp
      · rw [hp]
        exact h0 q (by simp)
      · exact ih (fun r hr => h0 r (List.mem_cons_of_mem _ hr)) p hp

theorem Pmf.Nonneg.incr {α : Type} [DecidableEq α] {pmf : Pmf α}
    (h : pmf.Nonneg) {v : α} {w : ℚ} (hw : 0 ≤ w) :
    (pmf.Incr v w).Nonneg :=
  incrItems_nonneg v w hw pmf.items h

theorem Pmf.Total_nonneg {α : Type} {pmf : Pmf α} (h : pmf.Nonneg) :
    0 ≤ pmf.Total := by
  unfold Pmf.Total
  apply List.sum_nonneg
  intro x hx
  obtain ⟨p, hp, hpx⟩ := List.mem_map.mp hx
  rw [← hpx]
  exact h p hp

theorem Pmf.Nonneg.normalize {α : Type} {pmf q : Pmf α} (h : pmf.Nonneg)
    (hq : pmf.Normalize = .ok q) : q.Nonneg := by
  unfold Pmf.Normalize at hq
  by_cases h0 : pmf.Total = 0
  · simp [h0] at hq
  · rw [if_neg h0] at hq
    simp only [Except.ok.injEq] at hq
    subst hq
    intro p hp
    obtain ⟨r, hr, hrp⟩ := List.mem_map.mp hp
    rw [← hrp]
    have hpos : 0 < pmf.Total := lt_of_le_of_ne (Pmf.Total_nonneg h)
      (Ne.symm h0)
    exact div_nonneg (h r hr) (le_of_lt hpos)

theorem Pmf.Random_ok {α : Type} [LinearOrder α] (pmf : Pmf α)
    (hn : pmf.Nonneg) (ht : pmf.Total ≠ 0) (rand : RandSrc)
    (hv : rand.Valid) :
    ∃ v, pmf.Random rand = .ok (v, rand.next.2) ∧
      v ∈ pmf.items.map Prod.fst := by
  have htotpos : 0 < pmf.Total :=
    lt_of_le_of_ne (Pmf.Total_nonneg hn) (Ne.symm ht)
  obtain ⟨⟨hu0, hu1⟩, _⟩ := RandSrc.next_valid rand hv
  have htot : (Cdf.MakeCdfFromItems pmf.items).total = pmf.Total := rfl
  obtain ⟨v, hval, hmem⟩ := Cdf.value_ok pmf.items
    (rand.next.1 * pmf.Total)
    (by positivity)
    (by
      calc rand.next.1 * pmf.Total < 1 * pmf.Total := by
            exact mul_lt_mul_of_pos_right hu1 htotpos
        _ = pmf.Total := one_mul _)
  refine ⟨v, ?_, hmem⟩
  unfold Pmf.Random Cdf.Random
  rw [htot, if_neg ht, hval]
  rfl

theorem dictLookup_some_mem {κ β : Type} [DecidableEq κ]
    (d : List (κ × β)) (k : κ) (v : β) (h : dictLookup d k = some v) :
    (k, v) ∈ d := by
  induction d with
  | nil => simp [dictLookup] at h
  | cons p rest ih =>
    by_cases hp : p.1 = k
    · simp only [dictLookup, if_pos hp] at h
      cases h
      have hpe : (k, p.2) = p := by
        rw [← hp]
      rw [hpe]
      exact List.mem_cons_self _ _
    · simp only [dictLookup, if_neg hp] at h
      exact List.mem_cons_of_mem _ (ih h)

theorem mem_dictInsert {κ β : Type} [DecidableEq κ]
    (d : List (κ × β)) (k : κ) (v : β) (q : κ × β)
    (h : q ∈ dictInsert d k v) : q = (k, v) ∨ q ∈ d := by
  induction d with
  | nil => simpa [dictInsert] using h
  | cons p rest ih =>
    by_cases hp : p.1 = k
    · simp only [dictInsert, if_pos hp, List.mem_cons] at h
      rcases h with h | h
      · exact Or.inl h
      · exact Or.inr (by simp [h])
    · simp only [dictInsert, if_neg hp, List.mem_cons] at h
      rcases h with h | h
      · exact Or.inr (by simp [h])
      · rcases ih h with h | h
        · exact Or.inl h
        · exact Or.inr (by simp [h])

theorem dictLookup_insert_isSome {κ β : Type} [DecidableEq κ]
    (d : List (κ × β)) (k : κ) (v : β)
    (hk : (dictLookup d k).isSome) (k' : κ) :
    (dictLookup (dictInsert d k v) k').isSome = (dictLookup d k').isSome := by
  by_cases hkk : k' = k
  · subst hkk
    obtain ⟨w, hw⟩ := Option.isSome_iff_exists.mp hk
    rw [dictLookup_insert_self, hw]
    rfl
  · rw [dictLookup_insert_other d k k' v hkk]

theorem dictLookup_normalize_env
    (tbl : List ((String × String) × Pmf String)) (key : String × String) :
    dictLookup (normalize_env_table tbl) key
      = (dictLookup tbl key).map fun pmf =>
          match pmf.Normalize with
          | .ok q => q
          | .error _ => pmf := by
  induction tbl with
  | nil => simp [normalize_env_table, dictLookup]
  | cons p rest ih =>
    cases hnorm : p.2.Normalize with
    | ok q =>
      by_cases hp : p.1 = key
      · simp [normalize_env_table, dictLookup, hnorm, hp]
      · simp only [normalize_env_table, List.map_cons, hnorm, dictLookup,
          if_neg hp]
        exact ih
    | error e =>
      by_cases hp : p.1 = key
      · simp [normalize_env_table, dictLookup, hnorm, hp]
      · simp only [normalize_env_table, List.map_cons, hnorm, dictLookup,
          if_neg hp]
        exact ih

theorem envTabLoop_inv (rs : List (Nat × Respondent))
    (hw : ∀ p ∈ rs, 0 ≤ p.2.compwt) :
    ∀ (tbl : List ((String × String) × Pmf String))
      (hist : Hist (String × String))
      (tbl2 : List ((String × String) × Pmf String))
      (hist2 : Hist (String × String)),
      envTabLoop rs tbl hist = .ok (tbl2, hist2) →
      (∀ q ∈ tbl, q.2.Nonneg) →
      ((∀ q ∈ tbl2, q.2.Nonneg) ∧
        ∀ key, (dictLookup tbl2 key).isSome
          = (dictLookup tbl key).isSome) := by
  induction rs with
  | nil =>
    intro tbl hist tbl2 hist2 h hn
    simp only [envTabLoop, Except.ok.injEq, Prod.mk.injEq] at h
    obtain ⟨h1, _⟩ := h
    subst h1
    exact ⟨hn, fun _ => rfl⟩
  | cons p rest ih =>
    intro tbl hist tbl2 hist2 h hn
    obtain ⟨c, r⟩ := p
    by_cases hna : r.marelig_name = "NA" ∨ r.parelig_name = "NA" ∨
        r.relig16_name = "NA"
    · rw [envTabLoop, if_pos hna] at h
      exact ih (fun q hq => hw q (by simp [hq])) tbl hist tbl2 hist2 h hn
    · rw [envTabLoop, if_neg hna] at h
      obtain ⟨pmf, hpmf, h⟩ := exceptBind_ok h
      have hlook : dictLookup tbl (r.marelig_name, r.parelig_name)
          = some pmf := by
        unfold dictIndex at hpmf
        cases hl : dictLookup tbl (r.marelig_name, r.parelig_name) with
        | none => rw [hl] at hpmf; simp at hpmf
        | some w =>
          rw [hl] at hpmf
          simp only [Except.ok.injEq] at hpmf
          rw [hpmf]
      have hwc : 0 ≤ r.compwt := hw (c, r) (by simp)
      have hn2 : ∀ q ∈ dictInsert tbl (r.marelig_name, r.parelig_name)
          (pmf.Incr r.relig16_name r.compwt), q.2.Nonneg := by
        intro q hq
        rcases mem_dictInsert _ _ _ q hq with hq | hq
        · rw [hq]
          exact (hn _ (dictLookup_some_mem _ _ _ hlook)).incr hwc
        · exact hn q hq
      obtain ⟨h2n, h2k⟩ := ih (fun q hq => hw q (by simp [hq])) _ _ _ _ h hn2
      refine ⟨h2n, fun key => ?_⟩
      rw [h2k key]
      exact dictLookup_insert_isSome tbl _ _ (by rw [hlook]; rfl) key

theorem init_env_lookup (ma pa : String) (hma : ma ∈ ORDER)
    (hpa : pa ∈ ORDER) :
    (dictLookup ((ORDER.map fun m1 => ORDER.map fun p1 =>
      ((m1, p1), (⟨[]⟩ : Pmf String))).flatten) (ma, pa)).isSome := by
  simp only [ORDER, List.mem_cons, List.not_mem_nil, or_false] at hma hpa
  rcases hma with h | h | h | h | h <;> subst h <;>
    (rcases hpa with g | g | g | g | g <;> subst g <;> decide)

theorem pychoice_pair {α : Type} (a b : α) (rand : RandSrc)
    (hv : rand.Valid) :
    ∃ v, pychoice [a, b] rand = .ok (v, rand.next.2) ∧ (v = a ∨ v = b) := by
  obtain ⟨⟨hu0, hu1⟩, _⟩ := RandSrc.next_valid rand hv
  have hlen : ((([a, b] : List α).length : ℚ)) = 2 := by norm_num
  have hnn : (0 : Int)
      ≤ (rand.next.1 * (([a, b] : List α).length : ℚ)).floor := by
    rw [hlen]
    show (0 : Int) ≤ ⌊rand.next.1 * 2⌋
    apply Int.floor_nonneg.mpr
    positivity
  have hlt2 : (rand.next.1 * (([a, b] : List α).length : ℚ)).floor
      < (2 : Int) := by
    rw [hlen]
    show ⌊rand.next.1 * 2⌋ < (2 : Int)
    apply Int.floor_lt.mpr
    push_cast
    linarith
  have hlt : (rand.next.1 * (([a, b] : List α).length : ℚ)).floor
      < ((([a, b] : List α).length : Nat) : Int) := by
    simpa using hlt2
  unfold pychoice
  rw [dif_pos ⟨hnn, hlt⟩]
  refine ⟨_, rfl, ?_⟩
  have hN : (rand.next.1 * (([a, b] : List α).length : ℚ)).floor.toNat = 0 ∨
      (rand.next.1 * (([a, b] : List α).length : ℚ)).floor.toNat = 1 := by
    omega
  rcases hN with h | h
  · left
    rw [hlen] at h
    simp [h]
  · right
    rw [hlen] at h
    simp [h]

/-- Claim C3: on a table built from any survey with nonnegative weights,
generate_raised never raises for any pair of affiliation names: it returns
a value sampled from the cell when the cell has nonzero total weight, and
otherwise one of the two parents own affiliations. -/
theorem claim_C3_generate_raised (s : Survey) (et : EnvironmentTable)
    (hmk : EnvironmentTable.make s = .ok et)
    (hw : ∀ p ∈ s.rs, 0 ≤ p.2.compwt)
    (ma pa : String) (hma : ma ∈ ORDER) (hpa : pa ∈ ORDER)
    (rand : RandSrc) (hv : rand.Valid) :
    ∃ pmf v rand1, dictLookup et.table (ma, pa) = some pmf ∧
      et.generate_raised ma pa rand = .ok (v, rand1) ∧
      (pmf.Total ≠ 0 → v ∈ pmf.items.map Prod.fst) ∧
      (pmf.Total = 0 → v = ma ∨ v = pa) := by
  unfold EnvironmentTable.make at hmk
  obtain ⟨pr, hloop, hmk⟩ := exceptBind_ok hmk
  obtain ⟨tbl, hist⟩ := pr
  simp only [Except.ok.injEq] at hmk
  subst hmk
  have hninit : ∀ q ∈ (ORDER.map fun m1 => ORDER.map fun p1 =>
      ((m1, p1), (⟨[]⟩ : Pmf String))).flatten,
      (q.2 : Pmf String).Nonneg := by
    intro q hq
    obtain ⟨l, hl, hql⟩ := List.mem_flatten.mp hq
    obtain ⟨m1, hm1, hlm⟩ := List.mem_map.mp hl
    rw [← hlm] at hql
    obtain ⟨p1, hp1, hqp⟩ := List.mem_map.mp hql
    rw [← hqp]
    intro x hx
    simp at hx
  obtain ⟨hn2, hkeys⟩ := envTabLoop_inv s.rs hw _ _ _ _ hloop hninit
  have hsome : (dictLookup tbl (ma, pa)).isSome := by
    rw [hkeys (ma, pa)]
    exact init_env_lookup ma pa hma hpa
  obtain ⟨pmf0, hpmf0⟩ := Option.isSome_iff_exists.mp hsome
  have hn0 : pmf0.Nonneg := hn2 _ (dictLookup_some_mem _ _ _ hpmf0)
  have hlookN : dictLookup (normalize_env_table tbl) (ma, pa)
      = some (match pmf0.Normalize with
        | .ok q => q
        | .error _ => pmf0) := by
    rw [dictLookup_normalize_env, hpmf0]
    rfl
  have hnN : (match pmf0.Normalize with
      | .ok q => q
      | .error _ => pmf0).Nonneg := by
    cases hN : pmf0.Normalize with
    | ok q => exact hn0.normalize hN
    | error e => exact hn0
  set pmfN := (match pmf0.Normalize with
    | .ok q => q
    | .error _ => pmf0) with hpmfN
  refine ⟨pmfN, ?_⟩
  by_cases hT : pmfN.Total = 0
  · obtain ⟨v, hok, hor⟩ := pychoice_pair ma pa rand hv
    refine ⟨v, rand.next.2, hlookN, ?_, fun hc => absurd hT hc, fun _ => hor⟩
    unfold EnvironmentTable.generate_raised
    show (dictIndex (normalize_env_table tbl) (ma, pa) >>= _) = _
    rw [show dictIndex (normalize_env_table tbl) (ma, pa) = .ok pmfN by
      unfold dictIndex
      rw [hlookN]]
    show (if pmfN.Total ≠ 0 then pmfN.Random rand
      else pychoice [ma, pa] rand) = _
    rw [if_neg (by simpa using hT)]
    exact hok
  · obtain ⟨v, hok, hmem⟩ := Pmf.Random_ok pmfN hnN hT rand hv
    refine ⟨v, rand.next.2, hlookN, ?_, fun _ => hmem, fun hc => absurd hc hT⟩
    unfold EnvironmentTable.generate_raised
    show (dictIndex (normalize_env_table tbl) (ma, pa) >>= _) = _
    rw [show dictIndex (normalize_env_table tbl) (ma, pa) = .ok pmfN by
      unfold dictIndex
      rw [hlookN]]
    show (if pmfN.Total ≠ 0 then pmfN.Random rand
      else pychoice [ma, pa] rand) = _
    rw [if_pos hT]
    exact hok

/-- Environment table of the empty survey: every cell present and empty. -/
def etEmpty : EnvironmentTable :=
  ⟨(ORDER.map fun m1 => ORDER.map fun p1 =>
    ((m1, p1), (⟨[]⟩ : Pmf String))).flatten, ⟨[]⟩⟩

theorem claim_C3_generate_raised_witness :
    ∃ pmf v rand1, dictLookup etEmpty.table ("prot", "cath") = some pmf ∧
      etEmpty.generate_raised "prot" "cath" rand0 = .ok (v, rand1) ∧
      (pmf.Total ≠ 0 → v ∈ pmf.items.map Prod.fst) ∧
      (pmf.Total = 0 → v = "prot" ∨ v = "cath") :=
  claim_C3_generate_raised Survey.empty etEmpty (by decide)
    (by intro p hp; simp [Survey.empty] at hp) "prot" "cath" (by decide)
    (by decide) rand0 (by intro u hu; simp [rand0] at hu)

theorem Pmf.Prob_nonneg {α : Type} [DecidableEq α] {pmf : Pmf α}
    (hn : pmf.Nonneg) (v : α) : 0 ≤ pmf.Prob v := by
  unfold Pmf.Prob
  cases hl : dictLookup pmf.items v with
  | none => simp
  | some w =>
    simp only [Option.getD_some]
    exact hn _ (dictLookup_some_mem _ _ _ hl)

theorem Pmf.Prob_le_Total {α : Type} [DecidableEq α] {pmf : Pmf α}
    (hn : pmf.Nonneg) (v : α) : pmf.Prob v ≤ pmf.Total := by
  unfold Pmf.Prob
  cases hl : dictLookup pmf.items v with
  | none =>
    simp only [Option.getD_none]
    exact Pmf.Total_nonneg hn
  | some w =>
    simp only [Option.getD_some]
    have hmem : (v, w) ∈ pmf.items := dictLookup_some_mem _ _ _ hl
    have : w ∈ pmf.items.map Prod.snd := by
      exact List.mem_map_of_mem _ hmem
    exact List.single_le_sum (fun x hx => by
      obtain ⟨p, hp, hpx⟩ := List.mem_map.mp hx
      rw [← hpx]
      exact hn p hp) w this

theorem agePmfLoop_nonneg (year : Int) :
    ∀ (rs : List (Nat × Respondent)) (pmf : Pmf Int), pmf.Nonneg →
      (∀ q ∈ rs, q.2.yrborn ≠ none → 0 ≤ q.2.compwt) →
      (agePmfLoop year rs pmf).Nonneg := by
  intro rs
  induction rs with
  | nil => intro pmf hn _; exact hn
  | cons q rest ih =>
    intro pmf hn hw
    cases hyb : q.2.yrborn with
    | none =>
      rw [agePmfLoop, hyb]
      exact ih pmf hn fun r hr hk => hw r (by simp [hr]) hk
    | some yb =>
      rw [agePmfLoop, hyb]
      exact ih _ (hn.incr (hw q (by simp) (by rw [hyb]; simp)))
        fun r hr hk => hw r (by simp [hr]) hk

theorem agePmfLoop_Prob_mono (year : Int) (a : Int) :
    ∀ (rs : List (Nat × Respondent)) (pmf : Pmf Int),
      (∀ q ∈ rs, q.2.yrborn ≠ none → 0 ≤ q.2.compwt) →
      pmf.Prob a ≤ (agePmfLoop year rs pmf).Prob a := by
  intro rs
  induction rs with
  | nil => intro pmf _; exact le_refl _
  | cons q rest ih =>
    intro pmf hw
    cases hyb : q.2.yrborn with
    | none =>
      rw [agePmfLoop, hyb]
      exact ih pmf fun r hr hk => hw r (by simp [hr]) hk
    | some yb =>
      rw [agePmfLoop, hyb]
      refine le_trans ?_ (ih _ fun r hr hk => hw r (by simp [hr]) hk)
      by_cases ha : a = year - yb
      · subst ha
        rw [Pmf.Prob_Incr_self]
        have := hw q (by simp) (by rw [hyb]; simp)
        linarith
      · rw [Pmf.Prob_Incr_other _ _ _ _ ha]

theorem agePmfLoop_Prob_ge (year : Int) :
    ∀ (rs : List (Nat × Respondent)) (pmf : Pmf Int), pmf.Nonneg →
      (∀ q ∈ rs, q.2.yrborn ≠ none → 0 ≤ q.2.compwt) →
      ∀ p ∈ rs, ∀ yb, p.2.yrborn = some yb →
        p.2.compwt ≤ (agePmfLoop year rs pmf).Prob (year - yb) := by
  intro rs
  induction rs with
  | nil =>
    intro pmf _ _ p hp
    simp at hp
  | cons q rest ih =>
    intro pmf hn hw p hp yb hyb
    rcases List.mem_cons.mp hp with hpq | hpr
    · subst hpq
      rw [agePmfLoop, hyb]
      refine le_trans ?_ (agePmfLoop_Prob_mono year (year - yb) rest _
        fun r hr hk => hw r (by simp [hr]) hk)
      rw [Pmf.Prob_Incr_self]
      have := Pmf.Prob_nonneg hn (year - yb)
      linarith
    · cases hqyb : q.2.yrborn with
      | none =>
        rw [agePmfLoop, hqyb]
        exact ih pmf hn (fun r hr hk => hw r (by simp [hr]) hk) p hpr yb hyb
      | some ybq =>
        rw [agePmfLoop, hqyb]
        exact ih _ (hn.incr (hw q (by simp) (by rw [hqyb]; simp)))
          (fun r hr hk => hw r (by simp [hr]) hk) p hpr yb hyb

theorem make_age_pmf_pos (s : Survey) (year : Int)
    (hpos : ∀ p ∈ s.rs, p.2.yrborn ≠ none → 0 < p.2.compwt)
    (hex : ∃ p ∈ s.rs, p.2.yrborn ≠ none) :
    ∃ current, s.make_age_pmf year = .ok current ∧
      ∀ p ∈ s.rs, ∀ yb, p.2.yrborn = some yb →
        0 < current.Prob (year - yb) := by
  have hw : ∀ q ∈ s.rs, q.2.yrborn ≠ none → 0 ≤ q.2.compwt :=
    fun q hq hk => le_of_lt (hpos q hq hk)
  have hnraw : (agePmfLoop year s.rs ⟨[]⟩).Nonneg :=
    agePmfLoop_nonneg year s.rs ⟨[]⟩ (fun p hp => by simp at hp) hw
  obtain ⟨p0, hp0, hp0k⟩ := hex
  obtain ⟨yb0, hyb0⟩ := Option.ne_none_iff_exists'.mp hp0k
  have hge0 : p0.2.compwt ≤ (agePmfLoop year s.rs ⟨[]⟩).Prob (year - yb0) :=
    agePmfLoop_Prob_ge year s.rs ⟨[]⟩ (fun p hp => by simp at hp) hw
      p0 hp0 yb0 hyb0
  have hw0 : 0 < p0.2.compwt := hpos p0 hp0 hp0k
  have htot : 0 < (agePmfLoop year s.rs ⟨[]⟩).Total := by
    have h1 : (agePmfLoop year s.rs ⟨[]⟩).Prob (year - yb0)
        ≤ (agePmfLoop year s.rs ⟨[]⟩).Total := Pmf.Prob_le_Total hnraw _
    linarith
  have hnz : (agePmfLoop year s.rs ⟨[]⟩).Total ≠ 0 := ne_of_gt htot
  refine ⟨⟨(agePmfLoop year s.rs ⟨[]⟩).items.map fun p =>
    (p.1, p.2 / (agePmfLoop year s.rs ⟨[]⟩).Total)⟩, ?_, ?_⟩
  · unfold Survey.make_age_pmf Pmf.Normalize
    rw [if_neg hnz]
  · intro p hp yb hyb
    have hnorm : (Pmf.Normalize (agePmfLoop year s.rs ⟨[]⟩))
        = .ok ⟨(agePmfLoop year s.rs ⟨[]⟩).items.map fun p =>
          (p.1, p.2 / (agePmfLoop year s.rs ⟨[]⟩).Total)⟩ := by
      unfold Pmf.Normalize
      rw [if_neg hnz]
    rw [Pmf.Prob_Normalize _ _ hnorm]
    have hge : p.2.compwt ≤ (agePmfLoop year s.rs ⟨[]⟩).Prob (year - yb) :=
      agePmfLoop_Prob_ge year s.rs ⟨[]⟩ (fun r hr => by simp at hr) hw
        p hp yb hyb
    have hwp : 0 < p.2.compwt := hpos p hp (by rw [hyb]; simp)
    exact div_pos (by linarith) htot

theorem resampleItemsLoop_ok (year : Int) (target current : Pmf Int) :
    ∀ (rs : List (Nat × Respondent)),
      (∀ p ∈ rs, ∀ yb, p.2.yrborn = some yb →
        current.Prob (year - yb) ≠ 0) →
      resampleItemsLoop year target current rs
        = .ok (rs.filterMap fun p => p.2.yrborn.map fun yb =>
            (p.1, target.Prob (year - yb) / current.Prob (year - yb))) := by
  intro rs
  induction rs with
  | nil => intro _; rfl
  | cons q rest ih =>
    intro hnz
    obtain ⟨c, r⟩ := q
    cases hyb : r.yrborn with
    | none =>
      rw [resampleItemsLoop, hyb]
      rw [ih fun p hp yb hyb => hnz p (by simp [hp]) yb hyb]
      simp only [List.filterMap_cons]
      rw [show (r.yrborn.map fun yb => (c, target.Prob (year - yb)
        / current.Prob (year - yb))) = none by rw [hyb]; rfl]
    | some yb =>
      rw [resampleItemsLoop, hyb]
      dsimp only
      have hq : current.Prob (year - yb) ≠ 0 :=
        hnz (c, r) (by simp) yb hyb
      rw [show pydiv (target.Prob (year - yb)) (current.Prob (year - yb))
        = .ok (target.Prob (year - yb) / current.Prob (year - yb)) by
          unfold pydiv
          rw [if_neg hq]]
      rw [ih fun p hp yb2 hyb2 => hnz p (by simp [hp]) yb2 hyb2]
      simp only [List.filterMap_cons]
      rw [show ((c, r).2.yrborn.map fun yb2 => ((c, r).1,
        target.Prob (year - yb2) / current.Prob (year - yb2)))
        = some (c, target.Prob (year - yb) / current.Prob (year - yb)) by
          rw [show (c, r).2.yrborn = some yb from hyb]
          rfl]
      rfl

/-- Claim C1 (amended): the per-year resampling step skips every
respondent with unknown birth year, and every remaining respondent
receives importance weight target over current probability of its age.
Provided every respondent with known birth year has strictly positive
weight (and at least one exists), the current probability of each such age
is strictly positive, so no division failure occurs and the step proceeds
to the weighted draw.  Without that proviso the division is not guarded:
a zero current probability raises ZeroDivisionError instead of excluding
the respondent (see the counterexample). -/
theorem claim_C1_resample_by_age_weights (s : Survey) (year : Int)
    (age_pmf : Pmf Int)
    (hpos : ∀ p ∈ s.rs, p.2.yrborn ≠ none → 0 < p.2.compwt)
    (hex : ∃ p ∈ s.rs, p.2.yrborn ≠ none) :
    ∃ current, s.make_age_pmf year = .ok current ∧
      resampleItemsLoop year age_pmf current s.rs
        = .ok (s.rs.filterMap fun p => p.2.yrborn.map fun yb =>
            (p.1, age_pmf.Prob (year - yb) / current.Prob (year - yb))) ∧
      ∀ n rand, s.resample_by_age n year age_pmf rand
        = s.resample_by_cdf (Cdf.MakeCdfFromItems
            (s.rs.filterMap fun p => p.2.yrborn.map fun yb =>
              (p.1, age_pmf.Prob (year - yb) / current.Prob (year - yb))))
            n rand := by
  obtain ⟨current, hcur, hprob⟩ := make_age_pmf_pos s year hpos hex
  have hitems := resampleItemsLoop_ok year age_pmf current s.rs
    fun p hp yb hyb => ne_of_gt (hprob p hp yb hyb)
  refine ⟨current, hcur, hitems, ?_⟩
  intro n rand
  unfold Survey.resample_by_age
  rw [hcur]
  simp only [bind, Except.bind]
  rw [hitems]

theorem claim_C1_resample_by_age_weights_witness :
    ∃ current, Survey.make_age_pmf ⟨[(5, rW)]⟩ 2000 = .ok current ∧
      resampleItemsLoop 2000 (⟨[((30 : Int), 1)]⟩ : Pmf Int) current
          (⟨[(5, rW)]⟩ : Survey).rs
        = .ok ((⟨[(5, rW)]⟩ : Survey).rs.filterMap fun p =>
            p.2.yrborn.map fun yb =>
              (p.1, (⟨[((30 : Int), 1)]⟩ : Pmf Int).Prob (2000 - yb)
                / current.Prob (2000 - yb))) ∧
      ∀ n rand, Survey.resample_by_age ⟨[(5, rW)]⟩ n 2000
          (⟨[((30 : Int), 1)]⟩ : Pmf Int) rand
        = Survey.resample_by_cdf ⟨[(5, rW)]⟩ (Cdf.MakeCdfFromItems
            ((⟨[(5, rW)]⟩ : Survey).rs.filterMap fun p =>
              p.2.yrborn.map fun yb =>
                (p.1, (⟨[((30 : Int), 1)]⟩ : Pmf Int).Prob (2000 - yb)
                  / current.Prob (2000 - yb)))) n rand :=
  claim_C1_resample_by_age_weights ⟨[(5, rW)]⟩ 2000 ⟨[((30 : Int), 1)]⟩
    (by decide) ⟨(5, rW), List.mem_cons_self _ _, by decide⟩

/-- Weight-zero respondent whose age in 2000 is shared by nobody else. -/
def rZero : Respondent :=
  .mk 1 0 2000 (some 1960) 1 "prot" "NA" "NA" "NA" (some 1960) 40 0 [] none

/-- Weight-one respondent at a different age. -/
def rOne : Respondent :=
  .mk 2 1 2000 (some 1970) 1 "prot" "NA" "NA" "NA" (some 1970) 30 0 [] none

/-- Claim C1 counterexample: on a survey holding a weight-zero respondent
(a legal record under the data model) whose age has zero probability under
the current age distribution, resample_by_age raises ZeroDivisionError
instead of excluding the respondent, refuting the claimed guard. -/
theorem claim_C1_counterexample :
    Survey.resample_by_age ⟨[(1, rZero), (2, rOne)]⟩ 2 2000
        (⟨[((40 : Int), 1)]⟩ : Pmf Int) rand0
      = .error .zeroDivision := by
  rfl

theorem dictLookup_none_iff {κ β : Type} [DecidableEq κ]
    (d : List (κ × β)) (k : κ) :
    dictLookup d k = none ↔ k ∉ d.map Prod.fst := by
  induction d with
  | nil => simp [dictLookup]
  | cons p rest ih =>
    by_cases hp : p.1 = k
    · simp [dictLookup, hp]
    · simp [dictLookup, hp, ih, Ne.symm hp]

theorem dictLookup_eq_of_mem {κ β : Type} [DecidableEq κ]
    (d : List (κ × β)) (hnodup : (d.map Prod.fst).Nodup) (k : κ) (v : β)
    (hm : (k, v) ∈ d) : dictLookup d k = some v := by
  induction d with
  | nil => simp at hm
  | cons p rest ih =>
    simp only [List.map_cons, List.nodup_cons] at hnodup
    rcases List.mem_cons.mp hm with hm | hm
    · rw [← hm]
      simp [dictLookup]
    · have hk : k ∈ rest.map Prod.fst := by
        simpa using List.mem_map_of_mem Prod.fst hm
      have hp : ¬ p.1 = k := by
        intro he
        exact hnodup.1 (he ▸ hk)
      simp only [dictLookup, if_neg hp]
      exact ih hnodup.2 hm

theorem dictLookup_perm {κ β : Type} [DecidableEq κ]
    (d d2 : List (κ × β)) (hperm : d.Perm d2)
    (hnodup : (d.map Prod.fst).Nodup) (k : κ) :
    dictLookup d k = dictLookup d2 k := by
  have hnodup2 : (d2.map Prod.fst).Nodup :=
    ((hperm.map Prod.fst).nodup_iff).mp hnodup
  cases hl : dictLookup d k with
  | none =>
    rw [dictLookup_none_iff] at hl
    have : k ∉ d2.map Prod.fst := fun hc =>
      hl (((hperm.map Prod.fst).mem_iff).mpr hc)
    exact ((dictLookup_none_iff d2 k).mpr this).symm
  | some v =>
    have hm : (k, v) ∈ d2 := hperm.mem_iff.mp (dictLookup_some_mem _ _ _ hl)
    exact (dictLookup_eq_of_mem d2 hnodup2 k v hm).symm

theorem dictInsert_keys_of_present {κ β : Type} [DecidableEq κ]
    (d : List (κ × β)) (k : κ) (v : β) (h : k ∈ d.map Prod.fst) :
    (dictInsert d k v).map Prod.fst = d.map Prod.fst := by
  induction d with
  | nil => simp at h
  | cons p rest ih =>
    by_cases hp : p.1 = k
    · simp [dictInsert, hp]
    · have : k ∈ rest.map Prod.fst := by
        simp only [List.map_cons, List.mem_cons] at h
        rcases h with h | h
        · exact absurd h.symm hp
        · exact h
      simp [dictInsert, hp, ih this]

theorem dictInsert_keys_nodup {κ β : Type} [DecidableEq κ]
    (d : List (κ × β)) (k : κ) (v : β)
    (h : (d.map Prod.fst).Nodup) : ((dictInsert d k v).map Prod.fst).Nodup := by
  by_cases hk : k ∈ d.map Prod.fst
  · rw [dictInsert_keys_of_present d k v hk]
    exact h
  · rw [dictInsert_keys_of_absent d k v ((dictLookup_none_iff d k).mpr hk)]
    simp [List.nodup_append, h, hk]

theorem birthIncr_keys_nodup (d : List (Nat × Hist Bool)) (age : Nat)
    (b : Bool) (h : (d.map Prod.fst).Nodup) :
    ((birthIncr d age b).map Prod.fst).Nodup :=
  dictInsert_keys_nodup d age _ h

theorem birthHistLoop_keys_nodup :
    ∀ (pairs : List (Respondent × List Int)) (d : List (Nat × Hist Bool)),
      (d.map Prod.fst).Nodup → ((birthHistLoop pairs d).map Prod.fst).Nodup := by
  intro pairs
  induction pairs with
  | nil => intro d h; exact h
  | cons pr rest ih =>
    intro d h
    obtain ⟨r, ages⟩ := pr
    by_cases hdec : decadeBelowCutoff r.decade
    · rw [birthHistLoop, if_pos hdec]
      exact ih d h
    · rw [birthHistLoop, if_neg hdec]
      apply ih
      generalize (List.range' 13 (r.age - 13)) = idxs
      induction idxs generalizing d with
      | nil => exact h
      | cons a rest2 ih2 =>
        simp only [List.foldl_cons]
        exact ih2 _ (birthIncr_keys_nodup d a _ h)

theorem birthTableLoop_spec :
    ∀ (entries : List (Nat × Hist Bool)) (t t2 : List ℚ),
      birthTableLoop entries t = .ok t2 →
      ((entries.map Prod.fst).Nodup) →
      (t2.length = t.length ∧
        (∀ age hist, dictLookup entries age = some hist →
          t2[age]? = some (hist.Freq true
            / (hist.Freq true + hist.Freq false))) ∧
        (∀ i, dictLookup entries i = none → t2[i]? = t[i]?)) := by
  intro entries
  induction entries with
  | nil =>
    intro t t2 h _
    simp only [birthTableLoop, Except.ok.injEq] at h
    subst h
    exact ⟨rfl, fun age hist hl => by simp [dictLookup] at hl,
      fun i _ => rfl⟩
  | cons e rest ih =>
    intro t t2 h hnodup
    obtain ⟨age, hist⟩ := e
    rw [birthTableLoop] at h
    obtain ⟨v, hv, h⟩ := exceptBind_ok h
    obtain ⟨t1, ht1, h⟩ := exceptBind_ok h
    simp only [List.map_cons, List.nodup_cons] at hnodup
    have hrestlookup : dictLookup rest age = none :=
      (dictLookup_none_iff rest age).mpr hnodup.1
    have hvval : v = hist.Freq true / (hist.Freq true + hist.Freq false) := by
      unfold pydiv at hv
      by_cases hz : hist.Freq true + hist.Freq false = 0
      · rw [if_pos hz] at hv; simp at hv
      · rw [if_neg hz] at hv
        simp only [Except.ok.injEq] at hv
        exact hv.symm
    have hset : t1 = t.set age v ∧ age < t.length := by
      unfold pySetIndex at ht1
      by_cases hlt : age < t.length
      · rw [if_pos hlt] at ht1
        simp only [Except.ok.injEq] at ht1
        exact ⟨ht1.symm, hlt⟩
      · rw [if_neg hlt] at ht1; simp at ht1
    obtain ⟨hlen1, hobs, hun⟩ := ih t1 t2 h hnodup.2
    refine ⟨by rw [hlen1, hset.1, List.length_set], ?_, ?_⟩
    · intro a ha hl
      by_cases hpa : age = a
      · subst hpa
        simp only [dictLookup, if_pos rfl] at hl
        cases hl
        rw [hun age hrestlookup, hset.1, ← hvval]
        exact List.getElem?_set_self hset.2
      · simp only [dictLookup, if_neg hpa] at hl
        exact hobs a ha hl
    · intro i hl
      have hia : ¬ (age = i) := by
        intro he
        subst he
        simp [dictLookup] at hl
      simp only [dictLookup, if_neg hia] at hl
      rw [hun i hl, hset.1]
      exact List.getElem?_set_ne hia

/-- Claim C9 (amended): after a successful BirthModel construction, the
hazard lookup prob never fails for ages below 90: an observed age returns
the raw hazard yes over yes plus no from the accumulated histogram, and an
age that was never observed silently returns the array default 0 instead
of failing (unobserved ages are excluded from the sampling distribution
only because they carry no mass; the lookup itself does not raise). -/
theorem claim_C9_birth_prob (s : Survey) (bm : BirthModel)
    (hmk : s.make_birth_model = .ok bm) :
    bm.table.length = 90 ∧
    ∃ pairs, iterChildAgesLoop s.rs = .ok pairs ∧
      bm.all_ages = (birthHistLoop pairs []).map Prod.fst ∧
      (∀ age hist, dictLookup (birthHistLoop pairs []) age = some hist →
        bm.prob age = .ok (hist.Freq true
          / (hist.Freq true + hist.Freq false))) ∧
      (∀ age, age < 90 → age ∉ (birthHistLoop pairs []).map Prod.fst →
        bm.prob age = .ok 0) := by
  unfold Survey.make_birth_model at hmk
  obtain ⟨pairs, hpairs, hmk⟩ := exceptBind_ok hmk
  obtain ⟨table, htable, hmk⟩ := exceptBind_ok hmk
  unfold BirthModel.make at hmk
  obtain ⟨raw, hraw, hmk⟩ := exceptBind_ok hmk
  obtain ⟨pmf, hpmf, hmk⟩ := exceptBind_ok hmk
  simp only [Except.ok.injEq] at hmk
  subst hmk
  have hnodup : (((birthHistLoop pairs []).map Prod.fst)).Nodup :=
    birthHistLoop_keys_nodup pairs [] (by simp)
  have hperm : (birthHistLoop pairs []).Perm
      (List.insertionSort (fun a b : Nat × Hist Bool => a.1 ≤ b.1)
        (birthHistLoop pairs [])) :=
    (List.perm_insertionSort _ _).symm
  have hnodups : ((List.insertionSort (fun a b : Nat × Hist Bool => a.1 ≤ b.1)
      (birthHistLoop pairs [])).map Prod.fst).Nodup :=
    ((hperm.map Prod.fst).nodup_iff).mp hnodup
  obtain ⟨hlen, hobs, hun⟩ := birthTableLoop_spec _ _ _ htable hnodups
  have hlen90 : table.length = 90 := by
    rw [hlen, List.length_replicate]
  refine ⟨hlen90, pairs, hpairs, rfl, ?_, ?_⟩
  · intro age hist hl
    have hls : dictLookup (List.insertionSort
        (fun a b : Nat × Hist Bool => a.1 ≤ b.1)
        (birthHistLoop pairs [])) age = some hist := by
      rw [← dictLookup_perm _ _ hperm hnodup age]
      exact hl
    have hget := hobs age hist hls
    have hlt : age < table.length := by
      by_contra hc
      push_neg at hc
      rw [List.getElem?_eq_none hc] at hget
      simp at hget
    unfold BirthModel.prob
    rw [dif_pos hlt]
    rw [List.getElem?_eq_getElem hlt] at hget
    simp only [Option.some.injEq] at hget
    rw [show table.get ⟨age, hlt⟩ = table[age] from rfl, hget]
  · intro age hage hmem
    have hl : dictLookup (birthHistLoop pairs []) age = none :=
      (dictLookup_none_iff _ age).mpr hmem
    have hls : dictLookup (List.insertionSort
        (fun a b : Nat × Hist Bool => a.1 ≤ b.1)
        (birthHistLoop pairs [])) age = none := by
      rw [← dictLookup_perm _ _ hperm hnodup age]
      exact hl
    have hget := hun age hls
    have hlt : age < table.length := by rw [hlen90]; exact hage
    unfold BirthModel.prob
    rw [dif_pos hlt]
    rw [List.getElem?_eq_getElem hlt] at hget
    have hrep : (List.replicate 90 (0 : ℚ))[age]? = some 0 := by
      have hlt2 : age < (List.replicate 90 (0 : ℚ)).length := by
        rw [List.length_replicate]
        exact hage
      rw [List.getElem?_eq_getElem hlt2]
      exact congrArg some (List.getElem_replicate _ _)
    rw [hrep] at hget
    simp only [Option.some.injEq] at hget
    rw [show table.get ⟨age, hlt⟩ = table[age] from rfl, hget]

/-- Respondent for the birth-model counterexample: age 16 at the 1976
survey, born 1960, one child born 1974. -/
def rBirth : Respondent :=
  .mk 1 1 1976 (some 1960) 2 "NA" "NA" "NA" "NA" (some 1960) 16 1
    [some 1974] none

/-- Claim C9 counterexample: on this survey the construction succeeds with
observed ages 13, 14, 15; age 50 was never observed, yet prob 50 returns
the value 0 instead of failing with UndefinedAge. -/
theorem claim_C9_counterexample :
    (Survey.make_birth_model ⟨[(1, rBirth)]⟩ >>= fun bm => bm.prob 50)
        = .ok 0 ∧
      (Survey.make_birth_model ⟨[(1, rBirth)]⟩).map BirthModel.all_ages
        = .ok [13, 14, 15] ∧
      (50 : Nat) ∉ [13, 14, 15] := by
  refine ⟨by decide, by decide, by decide⟩

theorem claim_C9_birth_prob_witness :
    ∃ bm, Survey.make_birth_model ⟨[(1, rBirth)]⟩ = .ok bm ∧
      bm.table.length = 90 := by
  have hok : (Survey.make_birth_model ⟨[(1, rBirth)]⟩).isOk = true := by
    decide
  cases h : Survey.make_birth_model ⟨[(1, rBirth)]⟩ with
  | error e => rw [h] at hok; simp [Except.isOk, Except.toBool] at hok
  | ok bm => exact ⟨bm, rfl, (claim_C9_birth_prob _ bm h).1⟩

/-- Claim C7: every per-year entry of the projection loop is produced by
resampling the same post-Generated working population (the survey held by
the one Generation object), never the previous year entry; hence for any
two years the populations resampled from are identical. -/
theorem claim_C7_year_loop (g : Generation) (years : List Int)
    (rand rand2 : RandSrc) (pairs : List (Int × Survey))
    (h : runSimYears g years rand = .ok (pairs, rand2)) :
    pairs.map Prod.fst = years ∧
    ∀ p ∈ pairs, ∃ r0 r1,
      Survey.resample_by_age g.survey g.n p.1 g.age_pmf r0
        = .ok (p.2, r1) := by
  induction years generalizing rand pairs with
  | nil =>
    simp only [runSimYears, Except.ok.injEq, Prod.mk.injEq] at h
    rw [← h.1]
    exact ⟨rfl, fun p hp => by simp at hp⟩
  | cons y rest ih =>
    rw [runSimYears] at h
    obtain ⟨sv, hsv, h⟩ := exceptBind_ok h
    obtain ⟨pr, hpr, h⟩ := exceptBind_ok h
    simp only [Except.ok.injEq, Prod.mk.injEq] at h
    obtain ⟨hpairs, hrand⟩ := h
    obtain ⟨hkeys, hvals⟩ := ih sv.2 pr.1 (by rw [hpr, ← hrand])
    constructor
    · rw [← hpairs]
      simp [hkeys]
    · intro p hp
      rw [← hpairs] at hp
      rcases List.mem_cons.mp hp with hp | hp
      · subst hp
        refine ⟨rand, sv.2, ?_⟩
        have h2 := hsv
        unfold Generation.simulate at h2
        simpa using h2
      · exact hvals p hp

/-- Generation used by the year-loop witness. -/
def genW : Generation :=
  ⟨⟨[(5, rW)]⟩, 1, ⟨[((30 : Int), 1), (31, 1)]⟩⟩

theorem claim_C7_year_loop_witness :
    ∃ pairs rand2, runSimYears genW [2000, 2001] rand0 = .ok (pairs, rand2) ∧
      pairs.map Prod.fst = [2000, 2001] ∧
      ∀ p ∈ pairs, ∃ r0 r1,
        Survey.resample_by_age genW.survey genW.n p.1 genW.age_pmf r0
          = .ok (p.2, r1) := by
  have h : runSimYears genW [2000, 2001] rand0
      = .ok ([(2000, ⟨[(0, rW)]⟩), (2001, ⟨[(0, rW)]⟩)], rand0) := rfl
  obtain ⟨hkeys, hvals⟩ :=
    claim_C7_year_loop genW [2000, 2001] rand0 rand0 _ h
  exact ⟨_, _, h, hkeys, hvals⟩

theorem resample_by_cdf_length (s : Survey) (cdf : Cdf Nat) (n : Nat)
    (rand rand2 : RandSrc) (s2 : Survey)
    (h : s.resample_by_cdf cdf n rand = .ok (s2, rand2)) :
    s2.rs.length = n := by
  unfold Survey.resample_by_cdf at h
  obtain ⟨ir, hir, h⟩ := exceptBind_ok h
  obtain ⟨rs2, hrs2, h⟩ := exceptBind_ok h
  simp only [Except.ok.injEq, Prod.mk.injEq] at h
  obtain ⟨hs2, _⟩ := h
  rw [← hs2]
  have hlen := (resampleDictLoop_spec s ir.1 0 rs2 hrs2).1
  have hn := Cdf.Sample_length cdf n rand ir.2 ir.1 (by rw [hir])
  rw [hlen, hn]

theorem resample_by_age_length (s : Survey) (n : Nat) (year : Int)
    (age_pmf : Pmf Int) (rand rand2 : RandSrc) (s2 : Survey)
    (h : s.resample_by_age n year age_pmf rand = .ok (s2, rand2)) :
    s2.rs.length = n := by
  unfold Survey.resample_by_age at h
  obtain ⟨current, hcur, h⟩ := exceptBind_ok h
  obtain ⟨items, hitems, h⟩ := exceptBind_ok h
  exact resample_by_cdf_length s _ n rand rand2 s2 h

theorem make_next_generation_n (c : Cohort) (year : Int) (survey : Survey)
    (rand : RandSrc) (counter : Nat) (gen : Generation) (rand1 : RandSrc)
    (counter1 : Nat)
    (h : c.make_next_generation year survey rand counter
      = .ok (gen, rand1, counter1)) :
    gen.n = survey.len := by
  unfold Cohort.make_next_generation at h
  obtain ⟨ap, hap, h⟩ := exceptBind_ok h
  obtain ⟨tr, htr, h⟩ := exceptBind_ok h
  simp only [Except.ok.injEq, Prod.mk.injEq] at h
  rw [← h.1]

theorem intRangeIncl_single (y : Int) : intRangeIncl y y = [y] := by
  unfold intRangeIncl
  rw [show y + 1 - y = 1 by ring]
  rw [show ((1 : Int)).toNat = 1 from rfl]
  rw [show List.range 1 = [0] from rfl]
  simp

/-- Claim C6: projecting a Cohort with start_year equal to end_year yields
exactly one entry in the year-to-population map, keyed by that year, and
the resampled population in it has exactly as many respondents as the
start-year subsample of the source survey taken before the synthesized
children are merged in. -/
theorem claim_C6_run_simulation (c : Cohort) (year : Int) (rand : RandSrc)
    (counter : Nat) (surveys : List (Int × Survey)) (rand2 : RandSrc)
    (counter2 : Nat)
    (h : c.run_simulation year year rand counter
      = .ok (surveys, rand2, counter2)) :
    ∃ s, surveys = [(year, s)] ∧
      s.rs.length
        = (c.survey.subsample fun r => r.year == year).rs.length := by
  unfold Cohort.run_simulation at h
  obtain ⟨gt, hgt, h⟩ := exceptBind_ok h
  obtain ⟨gen, rand1, counter1⟩ := gt
  dsimp only at h hgt
  obtain ⟨pt, hpt, h⟩ := exceptBind_ok h
  obtain ⟨pairs1, rand2a⟩ := pt
  dsimp only at h hpt
  simp only [Except.ok.injEq, Prod.mk.injEq] at h
  obtain ⟨hsurveys, hrand2, hcounter⟩ := h
  rw [intRangeIncl_single year, runSimYears] at hpt
  obtain ⟨sv, hsv, hpt⟩ := exceptBind_ok hpt
  obtain ⟨s1, rand1b⟩ := sv
  dsimp only at hpt hsv
  obtain ⟨pr, hpr, hpt⟩ := exceptBind_ok hpt
  obtain ⟨prl, prr⟩ := pr
  dsimp only at hpt hpr
  simp only [runSimYears, Except.ok.injEq, Prod.mk.injEq] at hpr
  obtain ⟨hprl, hprr⟩ := hpr
  simp only [Except.ok.injEq, Prod.mk.injEq] at hpt
  obtain ⟨hpairs1, hrand1b⟩ := hpt
  have hn : gen.n = (c.survey.subsample fun r => r.year == year).len :=
    make_next_generation_n c year _ rand counter gen rand1 counter1 hgt
  have hlen : s1.rs.length = gen.n := by
    have h2 := hsv
    unfold Generation.simulate at h2
    exact resample_by_age_length _ _ _ _ _ _ _ h2
  refine ⟨s1, ?_, ?_⟩
  · rw [← hsurveys, ← hpairs1, ← hprl]
  · rw [hlen, hn]
    rfl

/-- One-cell table sending prot to prot, for concrete witnesses. -/
def tW : Table := ⟨[("prot", ⟨[("prot", 1)]⟩)], ⟨[]⟩⟩

/-- Pooled transition model for concrete witnesses. -/
def tmW : TransitionModel2 := ⟨false, tW, tW, [], []⟩

/-- Birth model putting all childbearing mass on age 20. -/
def bmW : BirthModel :=
  ⟨[20], List.replicate 90 0, ⟨[(20, 1)]⟩,
    Cdf.MakeCdfFromItems [(20, (1 : ℚ))]⟩

/-- Cohort of one respondent surveyed in 2000, for concrete witnesses. -/
def cW : Cohort := ⟨⟨[(5, rW)]⟩, tmW, bmW⟩

theorem claim_C6_run_simulation_witness :
    ∃ s, [((2000 : Int), (⟨[(0, rW)]⟩ : Survey))] = [(2000, s)] ∧
      s.rs.length
        = (cW.survey.subsample fun r => r.year == 2000).rs.length :=
  claim_C6_run_simulation cW 2000 rand0 90000 [(2000, ⟨[(0, rW)]⟩)] rand0
    90001 rfl

/-- What simulate_generation guarantees for one emitted child: the fresh
identifier, the parent reference (carrying the parent original
affiliation), the inherited weight, and a birth year, upbringing and adult
affiliation produced by the birth model and the transition model. -/
def ChildSpec (tm : TransitionModel2) (bm : BirthModel)
    (parent child : Respondent) (cid : Nat) : Prop :=
  child.caseid = cid ∧
  child.parent = some parent ∧
  child.compwt = parent.compwt ∧
  ∃ y, child.yrborn = some y ∧
    (∃ a r0 r1, bm.random_age r0 = .ok (a, r1) ∧
      y = parent.yrborn.getD 0 + a) ∧
    (∃ r0 r1, tm.choose_upbringing y parent.relig_name r0
      = .ok (child.relig16_name, r1)) ∧
    (∃ r2 r3, tm.choose_transmission y child.relig16_name r2
      = .ok (child.relig_name, r3))

theorem make_child_spec (parent : Respondent) (y : Int)
    (tm : TransitionModel2) (rand : RandSrc) (counter : Nat)
    (child : Respondent) (rand2 : RandSrc) (counter1 : Nat)
    (h : parent.make_child y tm rand counter = .ok (child, rand2, counter1)) :
    counter1 = counter + 1 ∧ child.caseid = counter ∧
    child.parent = some parent ∧ child.compwt = parent.compwt ∧
    child.yrborn = some y ∧
    (∃ r0 r1, tm.choose_upbringing y parent.relig_name r0
      = .ok (child.relig16_name, r1)) ∧
    (∃ r2 r3, tm.choose_transmission y child.relig16_name r2
      = .ok (child.relig_name, r3)) := by
  unfold Respondent.make_child at h
  obtain ⟨u1, hu1, h⟩ := exceptBind_ok h
  obtain ⟨r16, ra⟩ := u1
  dsimp only at h hu1
  obtain ⟨u2, hu2, h⟩ := exceptBind_ok h
  obtain ⟨rl, rb⟩ := u2
  dsimp only at h hu2
  simp only [Except.ok.injEq, Prod.mk.injEq] at h
  obtain ⟨hchild, hrand, hcounter⟩ := h
  subst hchild
  refine ⟨hcounter.symm, rfl, rfl, rfl, rfl, ?_, ?_⟩
  · exact ⟨rand, ra, by
      show tm.choose_upbringing y parent.relig_name rand = .ok (r16, ra)
      exact hu1⟩
  · exact ⟨ra, rb, by
      show tm.choose_transmission y r16 ra = .ok (rl, rb)
      exact hu2⟩

theorem dictInsert_eq_append {κ β : Type} [DecidableEq κ]
    (d : List (κ × β)) (k : κ) (v : β) (h : k ∉ d.map Prod.fst) :
    dictInsert d k v = d ++ [(k, v)] := by
  induction d with
  | nil => rfl
  | cons p rest ih =>
    simp only [List.map_cons, List.mem_cons, not_or] at h
    rw [dictInsert, if_neg (fun he => h.1 he.symm)]
    rw [ih h.2]
    rfl

theorem simGenLoop_spec (tm : TransitionModel2) (bm : BirthModel) :
    ∀ (parents acc : List (Nat × Respondent)) (rand : RandSrc)
      (counter : Nat) (out : List (Nat × Respondent)) (rand2 : RandSrc)
      (counter2 : Nat),
      simGenLoop tm bm parents acc rand counter = .ok (out, rand2, counter2) →
      (∀ k ∈ acc.map Prod.fst, k < counter) →
      (counter2 = counter + (parents.filter fun p =>
          decide (¬ (p.2.relig_name = "NA" ∨ p.2.yrborn = none))).length ∧
        ∃ children, out = acc ++ children ∧
          children.map Prod.fst = List.range' counter
            (parents.filter fun p =>
              decide (¬ (p.2.relig_name = "NA" ∨
                p.2.yrborn = none))).length ∧
          ∀ j pp, (parents.filter fun p =>
              decide (¬ (p.2.relig_name = "NA" ∨ p.2.yrborn = none))).get? j
              = some pp →
            ∃ child, children.get? j = some (counter + j, child) ∧
              ChildSpec tm bm pp.2 child (counter + j)) := by
  intro parents
  induction parents with
  | nil =>
    intro acc rand counter out rand2 counter2 h hacc
    simp only [simGenLoop, Except.ok.injEq, Prod.mk.injEq] at h
    obtain ⟨hout, _, hcounter⟩ := h
    refine ⟨by simp [← hcounter], [], by simp [← hout], by simp, ?_⟩
    intro j pp hj
    simp at hj
  | cons q rest ih =>
    intro acc rand counter out rand2 counter2 h hacc
    obtain ⟨c, parent⟩ := q
    by_cases hcond : parent.relig_name = "NA" ∨ parent.yrborn = none
    · rw [simGenLoop, if_pos hcond] at h
      obtain ⟨hcounter2, children, hout, hkeys, hidx⟩ :=
        ih acc rand counter out rand2 counter2 h hacc
      have hdec : decide (¬ ((c, parent).2.relig_name = "NA" ∨
          (c, parent).2.yrborn = none)) = false := by
        simp only [decide_eq_false_iff_not, not_not]
        exact hcond
      have hfilter : ((c, parent) :: rest).filter (fun p =>
          decide (¬ (p.2.relig_name = "NA" ∨ p.2.yrborn = none)))
          = rest.filter (fun p =>
            decide (¬ (p.2.relig_name = "NA" ∨ p.2.yrborn = none))) := by
        rw [List.filter_cons]
        rw [hdec]
        simp
      rw [hfilter]
      exact ⟨hcounter2, children, hout, hkeys, hidx⟩
    · rw [simGenLoop, if_neg hcond] at h
      obtain ⟨av, hav, h⟩ := exceptBind_ok h
      obtain ⟨a, ra⟩ := av
      dsimp only at h hav
      obtain ⟨cv, hcv, h⟩ := exceptBind_ok h
      obtain ⟨child, rc, counter1⟩ := cv
      dsimp only at h hcv
      obtain ⟨hc1, hcid, hcparent, hcw, hcyb, hub, htrans⟩ :=
        make_child_spec parent _ tm ra counter child rc counter1 hcv
      subst hc1
      have hnotin : child.caseid ∉ acc.map Prod.fst := by
        rw [hcid]
        intro hmem
        exact absurd (hacc _ hmem) (by omega)
      rw [dictInsert_eq_append acc child.caseid child hnotin] at h
      have hacc2 : ∀ k ∈ (acc ++ [(child.caseid, child)]).map Prod.fst,
          k < counter + 1 := by
        intro k hk
        simp only [List.map_append, List.mem_append] at hk
        rcases hk with hk | hk
        · exact Nat.lt_succ_of_lt (hacc k hk)
        · simp at hk
          rw [hk, hcid]
          omega
      obtain ⟨hcounter2, children1, hout, hkeys, hidx⟩ :=
        ih _ rc (counter + 1) out rand2 counter2 h hacc2
      have hdec : decide (¬ ((c, parent).2.relig_name = "NA" ∨
          (c, parent).2.yrborn = none)) = true := by
        simp only [decide_eq_true_eq]
        exact hcond
      have hfilter : ((c, parent) :: rest).filter (fun p =>
          decide (¬ (p.2.relig_name = "NA" ∨ p.2.yrborn = none)))
          = (c, parent) :: rest.filter (fun p =>
            decide (¬ (p.2.relig_name = "NA" ∨ p.2.yrborn = none))) := by
        rw [List.filter_cons]
        rw [hdec]
        simp
      rw [hfilter]
      refine ⟨by simp [hcounter2]; omega, (child.caseid, child) :: children1,
        ?_, ?_, ?_⟩
      · rw [hout, List.append_assoc]
        rfl
      · simp only [List.map_cons, hkeys, List.length_cons, hcid]
        rw [List.range'_succ]
      · intro j pp hj
        cases j with
        | zero =>
          simp only [List.get?] at hj
          cases hj
          refine ⟨child, by simp [hcid], ?_⟩
          rw [show counter + 0 = counter from rfl]
          exact ⟨hcid, hcparent, hcw, parent.yrborn.getD 0 + a, hcyb,
            ⟨a, rand, ra, hav, rfl⟩, hub, htrans⟩
        | succ j =>
          simp only [List.get?] at hj
          obtain ⟨child2, hg, hspec⟩ := hidx j pp hj
          refine ⟨child2, ?_, ?_⟩
          · simp only [List.get?, hg]
            congr 2
            omega
          · have : counter + 1 + j = counter + (j + 1) := by omega
            rw [← this]
            exact hspec

theorem simGenLoop_all_skip (tm : TransitionModel2) (bm : BirthModel) :
    ∀ (parents : List (Nat × Respondent)) (acc : List (Nat × Respondent))
      (rand : RandSrc) (counter : Nat),
      (∀ p ∈ parents, p.2.relig_name = "NA" ∨ p.2.yrborn = none) →
      simGenLoop tm bm parents acc rand counter = .ok (acc, rand, counter) := by
  intro parents
  induction parents with
  | nil => intro acc rand counter _; rfl
  | cons q rest ih =>
    intro acc rand counter hall
    obtain ⟨c, parent⟩ := q
    rw [simGenLoop, if_pos (hall (c, parent) (by simp))]
    exact ih acc rand counter fun p hp => hall p (by simp [hp])

/-- Claim C8: simulate_generation skips every parent with unknown
affiliation or birth year (emitting no child and no error for them), and
emits for every other parent exactly one child, in order, keyed and
stamped with consecutive fresh identifiers from the shared counter,
inheriting the parent weight, holding a reference to the parent (hence its
original affiliation), with birth year equal to the parent birth year plus
a sampled childbearing age, and with upbringing and adult affiliation
drawn from the transition model. -/
theorem claim_C8_simulate_generation (tm : TransitionModel2)
    (bm : BirthModel) (survey : Survey) (rand : RandSrc) (counter : Nat) :
    (∀ ng rand2 counter2,
      tm.simulate_generation survey bm rand counter
        = .ok (ng, rand2, counter2) →
      counter2 = counter + (survey.rs.filter fun p =>
        decide (¬ (p.2.relig_name = "NA" ∨ p.2.yrborn = none))).length ∧
      ng.rs.map Prod.fst = List.range' counter (survey.rs.filter fun p =>
        decide (¬ (p.2.relig_name = "NA" ∨ p.2.yrborn = none))).length ∧
      ∀ j pp, (survey.rs.filter fun p =>
          decide (¬ (p.2.relig_name = "NA" ∨ p.2.yrborn = none))).get? j
          = some pp →
        ∃ child, ng.rs.get? j = some (counter + j, child) ∧
          ChildSpec tm bm pp.2 child (counter + j)) ∧
    ((∀ p ∈ survey.rs, p.2.relig_name = "NA" ∨ p.2.yrborn = none) →
      tm.simulate_generation survey bm rand counter
        = .ok (⟨[]⟩, rand, counter)) := by
  constructor
  · intro ng rand2 counter2 h
    unfold TransitionModel2.simulate_generation at h
    obtain ⟨tr, htr, h⟩ := exceptBind_ok h
    obtain ⟨rs1, r1, c1⟩ := tr
    dsimp only at h htr
    simp only [Except.ok.injEq, Prod.mk.injEq] at h
    obtain ⟨hng, hr2, hc2⟩ := h
    obtain ⟨hcnt, children, hout, hkeys, hidx⟩ :=
      simGenLoop_spec tm bm survey.rs [] rand counter rs1 r1 c1 htr
        (by intro k hk; simp at hk)
    rw [List.nil_append] at hout
    subst hout
    refine ⟨by rw [← hc2, hcnt], ?_, ?_⟩
    · rw [← hng]
      exact hkeys
    · intro j pp hj
      obtain ⟨child, hg, hspec⟩ := hidx j pp hj
      refine ⟨child, ?_, hspec⟩
      rw [← hng]
      exact hg
  · intro hall
    unfold TransitionModel2.simulate_generation
    rw [simGenLoop_all_skip tm bm survey.rs [] rand counter hall]
    rfl

/-- Parent with unknown affiliation and birth year, for witnesses. -/
def rNA : Respondent :=
  .mk 9 1 2000 none 1 "NA" "NA" "NA" "NA" none 0 0 [] none

/-- The child the witness run emits for rW. -/
def childW : Respondent :=
  .mk 90000 1 0 (some 1990) 0 "prot" "prot" "NA" "NA" none 0 0 [] (some rW)

theorem claim_C8_simulate_generation_witness :
    (∃ ng rand2 counter2,
      tmW.simulate_generation ⟨[(5, rW), (9, rNA)]⟩ bmW rand0 90000
        = .ok (ng, rand2, counter2) ∧
      ng.rs.map Prod.fst = List.range' 90000 1) ∧
    tmW.simulate_generation ⟨[(9, rNA)]⟩ bmW rand0 90000
      = .ok (⟨[]⟩, rand0, 90000) := by
  constructor
  · have hrun : tmW.simulate_generation ⟨[(5, rW), (9, rNA)]⟩ bmW rand0 90000
        = .ok (⟨[(90000, childW)]⟩, rand0, 90001) := rfl
    obtain ⟨hcnt, hkeys, hidx⟩ :=
      (claim_C8_simulate_generation tmW bmW ⟨[(5, rW), (9, rNA)]⟩ rand0
        90000).1 _ _ _ hrun
    exact ⟨_, _, _, hrun, hkeys.trans (by decide)⟩
  · exact (claim_C8_simulate_generation tmW bmW ⟨[(9, rNA)]⟩ rand0 90000).2
      (by intro p hp
          simp only [List.mem_singleton] at hp
          subst hp
          left
          rfl)

/-- Claim C2: on at least two trials with equal-length outcome vectors,
extract_predictions returns one pair per tracked component whose first
entry is the arithmetic mean of that component across all trials and whose
span is the sorted per-trial values at position 1 (the 2nd-lowest, one
minimum discarded) and position n - 2 (the 2nd-highest, one maximum
discarded). -/
theorem claim_C2_extract_predictions (data : List (List ℚ)) (k : Nat)
    (htrials : 2 ≤ data.length) (hk : ∀ row ∈ data, row.length = k) :
    ∃ preds, Survey.extract_predictions data = .ok preds ∧
      preds.length = k ∧
      ∀ j, j < k →
        ∃ lo hi,
          preds.get? j = some ((column data j).sum / data.length, (lo, hi)) ∧
          (column data j).length = data.length ∧
          (List.insertionSort (fun a b : ℚ => a ≤ b) (column data j)).get? 1
            = some lo ∧
          (List.insertionSort (fun a b : ℚ => a ≤ b)
            (column data j)).get? (data.length - 2) = some hi := by
  have hne : data ≠ [] := by
    intro h
    rw [h] at htrials
    simp at htrials
  unfold Survey.extract_predictions
  rw [pyzip_eq_columns k data hne hk]
  have hcols : ∀ col ∈ (List.range k).map (column data),
      col.length = data.length := by
    intro col hcol
    obtain ⟨j, hj, hjc⟩ := List.mem_map.mp hcol
    rw [← hjc]
    exact column_length data k j hk (List.mem_range.mp hj)
  obtain ⟨preds, hp, hplen, hpi⟩ :=
    extractLoop_spec data.length htrials ((List.range k).map (column data))
      hcols
  refine ⟨preds, hp, by simp [hplen], ?_⟩
  intro j hj
  have hg : ((List.range k).map (column data)).get? j
      = some (column data j) := by
    rw [List.get?_map, List.get?_range hj]
    rfl
  obtain ⟨lo, hi, hpg, hlo, hhi⟩ := hpi j (column data j) hg
  exact ⟨lo, hi, hpg, column_length data k j hk hj, hlo, hhi⟩

theorem claim_C2_extract_predictions_witness :
    ∃ preds, Survey.extract_predictions [[1, 5], [3, 2], [2, 8]]
        = .ok preds ∧
      preds.length = 2 ∧
      ∀ j, j < 2 →
        ∃ lo hi,
          preds.get? j = some
            ((column [[1, 5], [3, 2], [2, 8]] j).sum / 3, (lo, hi)) ∧
          (column [[1, 5], [3, 2], [2, 8]] j).length = 3 ∧
          (List.insertionSort (fun a b : ℚ => a ≤ b)
            (column [[1, 5], [3, 2], [2, 8]] j)).get? 1 = some lo ∧
          (List.insertionSort (fun a b : ℚ => a ≤ b)
            (column [[1, 5], [3, 2], [2, 8]] j)).get? 1 = some hi :=
  claim_C2_extract_predictions [[1, 5], [3, 2], [2, 8]] 2 (by decide)
    (by decide)
